import Mathlib

/-!
Shallow embedding of the miglint migration-filename linter
(`internal/lint/lint.go` and `cmd/miglint/main.go`).

Filenames are modelled as `List Char`.  The three package-level regular
expressions are embedded as executable matchers with Go's leftmost-first
(greedy, backtracking-preference) submatch semantics; the class `.` matches
any character except a newline.  Directory entries are modelled as the list
of regular-file base names in directory-listing order; machine integers
(`int64` versions) are modelled as `Int` with the explicit `2^63 - 1`
overflow bound of `strconv.ParseInt(_, 10, 64)` on unsigned digit strings.
-/

namespace Miglint

/-- The character class of `.` in a Go regular expression: any character
except a newline. -/
def dotAny (c : Char) : Bool := c != '\n'

/-- The character class `[0-9]`. -/
def isDigitChar (c : Char) : Bool := 48 ≤ c.toNat && c.toNat ≤ 57

/-- The literal direction token `up`. -/
def upTok : List Char := ['u', 'p']

/-- The literal direction token `down`. -/
def downTok : List Char := ['d', 'o', 'w', 'n']

/-- Greedy split of `r` as `n ++ t` where every character of `n` lies in the
`.` class and `tail t` succeeds; among all such splits the one with the
longest `n` is preferred, mirroring the backtracking order of a greedy
`(.+)` or `(.*)` followed by the rest of the pattern. -/
def greedySplit (tail : List Char → Option α) : List Char → Option (List Char × α)
  | [] => (tail []).map (fun a => ([], a))
  | c :: r =>
    if dotAny c then
      match greedySplit tail r with
      | some p => some (c :: p.1, p.2)
      | none => (tail (c :: r)).map (fun a => ([], a))
    else (tail (c :: r)).map (fun a => ([], a))

/-- A greedy `(.+)` before `tail`: at least one character, longest first. -/
def nameSplit (tail : List Char → Option α) : List Char → Option (List Char × α)
  | [] => none
  | c :: r =>
    if dotAny c then (greedySplit tail r).map (fun p => (c :: p.1, p.2)) else none

/-- The split `^([0-9]+)_` : the maximal leading digit run followed by an underscore
(`_` is not a digit, so the greedy digit run is exactly the maximal one). -/
def splitVersion (s : List Char) : Option (List Char × List Char) :=
  if s.takeWhile isDigitChar ≠ [] ∧ (s.dropWhile isDigitChar).head? = some '_' then
    some (s.takeWhile isDigitChar, (s.dropWhile isDigitChar).tail)
  else none

/-- The tail `\.(up|down)\.(.+)$` of the canonical pattern: a literal dot,
a direction token, a literal dot and a non-empty extension part.  The `up`
alternative is tried first, as in the regular expression; the two literal
heads are mutually exclusive. -/
def dirSplit (t : List Char) : Option (List Char × List Char) :=
  if t.take 4 = ['.', 'u', 'p', '.'] ∧ t.drop 4 ≠ [] ∧ (t.drop 4).all dotAny = true then
    some (upTok, t.drop 4)
  else if t.take 6 = ['.', 'd', 'o', 'w', 'n', '.'] ∧ t.drop 6 ≠ []
      ∧ (t.drop 6).all dotAny = true then
    some (downTok, t.drop 6)
  else none

/-- The matcher `migratePattern = ^([0-9]+)_(.+)\.(up|down)\.(.+)$`, returning the four
submatches (version string, name part, direction, extension part). -/
def migratePattern (s : List Char) : Option (List Char × List Char × List Char × List Char) :=
  match splitVersion s with
  | none => none
  | some (v, r) => (nameSplit dirSplit r).map (fun p => (v, p.1, p.2.1, p.2.2))

/-- Start of the tail of the loose pattern: `\.(up|down)\..` (one further
`.`-class character, anything may follow — the pattern is not anchored on
the right). -/
def likeTail : List Char → Bool
  | '.' :: 'u' :: 'p' :: '.' :: c :: _ => dotAny c
  | '.' :: 'd' :: 'o' :: 'w' :: 'n' :: '.' :: c :: _ => dotAny c
  | _ => false

/-- The check `likeTail` as an `Option`, for reuse of the greedy splitter. -/
def likeTailO (t : List Char) : Option Unit := if likeTail t then some () else none

/-- The matcher `migrationLikeRe = ^[0-9]+_.+\.(up|down)\..+` (no right anchor); only
whether a match exists is ever used (`MatchString`). -/
def migrationLikeRe (s : List Char) : Bool :=
  match splitVersion s with
  | none => false
  | some (_, r) => (nameSplit likeTailO r).isSome

/-- The part after the direction in `migrationPrefixRe`: `(?:\.(.*))?$`.
Go reports the unmatched optional group as the empty string, so both an
absent group and an empty `(.*)` yield `[]`. -/
def afterDir (rest : List Char) : Option (List Char) :=
  if rest = [] then some []
  else if rest.head? = some '.' ∧ rest.tail.all dotAny = true then some rest.tail
  else none

/-- The tail `\.(up|down)(?:\.(.*))?$` of the prefix pattern. -/
def dirOptTail (t : List Char) : Option (List Char × List Char) :=
  if t.take 3 = ['.', 'u', 'p'] then (afterDir (t.drop 3)).map (fun e => (upTok, e))
  else if t.take 5 = ['.', 'd', 'o', 'w', 'n'] then
    (afterDir (t.drop 5)).map (fun e => (downTok, e))
  else none

/-- The matcher `migrationPrefixRe = ^([0-9]+)_(.+)\.(up|down)(?:\.(.*))?$`. -/
def migrationPrefixRe (s : List Char) : Option (List Char × List Char × List Char × List Char) :=
  match splitVersion s with
  | none => none
  | some (v, r) => (nameSplit dirOptTail r).map (fun p => (v, p.1, p.2.1, p.2.2))

/-- The flag `hasDirection` in `Lint`: whether `migrationPrefixRe` matched. -/
def hasDirectionToken (name : List Char) : Bool := (migrationPrefixRe name).isSome

/-- The string `extPartOpt` in `Lint`: the fourth submatch of `migrationPrefixRe`,
empty when the pattern did not match at all. -/
def extPartOptOf (name : List Char) : List Char :=
  match migrationPrefixRe name with
  | some (_, _, _, e) => e
  | none => []

/-- The helper `finalExtension` in `lint.go`: the substring after the last dot, empty
when there is no dot or the name ends with a dot. -/
def finalExtension : List Char → List Char
  | [] => []
  | '.' :: rest => if rest.contains '.' then finalExtension rest else rest
  | _ :: rest => finalExtension rest

/-- The string `finalExtForMatch` in `Lint`: the final extension, forced to empty when
a direction token was found with no extension part after it. -/
def finalExtForMatchOf (name : List Char) : List Char :=
  if hasDirectionToken name && (extPartOptOf name).isEmpty then []
  else finalExtension name

/-- The predicate `extMatches` in `lint.go`. -/
def extMatches (expected finalExt extPart : List Char) : Bool :=
  if expected = [] then true
  else if expected.contains '.' then extPart == expected
  else finalExt == expected

/-- The lint configuration (`Config` in `lint.go`).  `digits` is a Go `int`,
modelled as `Int` (`parseFlags` rejects negative values, but `Lint` itself
accepts any). -/
structure Config where
  path : List Char
  ext : List Char
  enforceExt : Bool
  noGaps : Bool
  digits : Int
  requireDown : Bool
  strictNameMatch : Bool
  strictPattern : Bool
  deriving DecidableEq, Repr

/-- Whether the first byte of the name is an ASCII digit (`name[0] >= '0'
&& name[0] <= '9'`); directory entry names are never empty, so `[]` is
mapped to `false`. -/
def nameStartsWithDigit : List Char → Bool
  | c :: _ => isDigitChar c
  | [] => false

/-- The predicate `isCandidate` in `lint.go`. -/
def isCandidate (name finalExt extPart : List Char) (migrationLike hasDirection : Bool)
    (cfg : Config) : Bool :=
  if !cfg.strictPattern then false
  else if cfg.ext ≠ [] then
    if extMatches cfg.ext finalExt extPart then true
    else if cfg.enforceExt && (migrationLike || hasDirection) then true
    else false
  else if nameStartsWithDigit name then true
  else migrationLike || hasDirection

/-- One parsed migration file (`Migration` in `lint.go`). -/
structure Migration where
  path : List Char
  fileName : List Char
  versionStr : List Char
  version : Int
  namePart : List Char
  direction : List Char
  extPart : List Char
  finalExt : List Char
  deriving DecidableEq, Repr

/-- The up/down lists of one version (`VersionGroup` in `lint.go`);
insertion order is directory-listing order. -/
structure VersionGroup where
  up : List Migration
  down : List Migration
  deriving DecidableEq, Repr

/-- One accumulated lint error.  Each constructor corresponds to one
`fmt.Sprintf` site in `lint.go` and carries exactly that site's format
arguments. -/
inductive Violation where
  | extMismatch (path expected finalExt extPart : List Char)
  | unmatched (path : List Char)
  | versionParseError (path : List Char)
  | digitsMismatch (path : List Char) (lenV : Nat) (expected : Int)
  | duplicateUp (version : Int) (paths : List Char)
  | duplicateDown (version : Int) (paths : List Char)
  | missingDown (version : Int)
  | missingUp (version : Int)
  | nameExtMismatch (version : Int) (upFile downFile : List Char)
  | missingSingle (missing prev cur : Int)
  | missingRange (lo hi prev cur : Int)
  deriving DecidableEq, Repr

/-- The call `filepath.Join(cfg.Path, name)` for a clean directory path. -/
def joinPath (dir name : List Char) : List Char := dir ++ '/' :: name

/-- The numeric value of a digit string. -/
def digitsToNat (v : List Char) : Nat :=
  v.foldl (fun acc c => acc * 10 + (c.toNat - 48)) 0

/-- The largest value accepted by `strconv.ParseInt(_, 10, 64)`. -/
def maxInt64 : Nat := 2 ^ 63 - 1

/-- The call `strconv.ParseInt(versionStr, 10, 64)` on an all-digit string: succeeds
exactly when the value fits a signed 64-bit integer. -/
def parseVersion (v : List Char) : Option Int :=
  if digitsToNat v ≤ maxInt64 then some ((digitsToNat v : Int)) else none

/-- The extension-enforcement errors recorded for one entry
(`lint.go` lines 183–188). -/
def entryExtErrs (cfg : Config) (name : List Char) : List Violation :=
  if cfg.ext ≠ [] ∧ cfg.enforceExt = true
      ∧ extMatches cfg.ext (finalExtForMatchOf name) (extPartOptOf name) = false
      ∧ ((migratePattern name).isSome = true ∨ migrationLikeRe name = true
          ∨ hasDirectionToken name = true) then
    if (migratePattern name).isSome = true ∨ cfg.strictPattern = false then
      [.extMismatch (joinPath cfg.path name) cfg.ext (finalExtForMatchOf name)
        (extPartOptOf name)]
    else []
  else []

/-- Per-entry phase of `Lint` (`lint.go` lines 167–243) for one directory
entry: the violations it appends, and the record it inserts into its
version group (`true` = up list), if any. -/
def classifyEntry (cfg : Config) (name : List Char) :
    List Violation × Option (Bool × Int × Migration) :=
  match migratePattern name with
  | none =>
    (entryExtErrs cfg name ++
      (if isCandidate name (finalExtForMatchOf name) (extPartOptOf name)
            (migrationLikeRe name) (hasDirectionToken name) cfg = true then
        [.unmatched (joinPath cfg.path name)]
      else []), none)
  | some (versionStr, namePart, direction, extPart) =>
    if cfg.ext ≠ [] ∧ extMatches cfg.ext (finalExtForMatchOf name) extPart = false then
      (entryExtErrs cfg name, none)
    else
      match parseVersion versionStr with
      | none => (entryExtErrs cfg name ++ [.versionParseError (joinPath cfg.path name)], none)
      | some version =>
        (entryExtErrs cfg name ++
          (if 0 < cfg.digits ∧ (versionStr.length : Int) ≠ cfg.digits then
            [.digitsMismatch (joinPath cfg.path name) versionStr.length cfg.digits]
          else []),
         some (direction == upTok, version,
           { path := joinPath cfg.path name, fileName := name, versionStr := versionStr,
             version := version, namePart := namePart, direction := direction,
             extPart := extPart, finalExt := finalExtension name }))

/-- Append a migration to the up or down list of a group. -/
def addToGroup (g : VersionGroup) (isUp : Bool) (m : Migration) : VersionGroup :=
  if isUp then { g with up := g.up ++ [m] } else { g with down := g.down ++ [m] }

/-- Insert one record into the version map.  The map plus its
insertion-ordered key list (`versions` and `versionKeys` in `Lint`) are
modelled together as an association list: a key is appended exactly when
its group is first created. -/
def insertRecord : List (Int × VersionGroup) → Int → Bool → Migration →
    List (Int × VersionGroup)
  | [], v, isUp, m => [(v, addToGroup ⟨[], []⟩ isUp m)]
  | (k, g) :: rest, v, isUp, m =>
    if k = v then (k, addToGroup g isUp m) :: rest
    else (k, g) :: insertRecord rest v isUp m

/-- Build the version map from the classified records in entry order. -/
def buildGroups (recs : List (Bool × Int × Migration)) : List (Int × VersionGroup) :=
  recs.foldl (fun gs r => insertRecord gs r.2.1 r.1 r.2.2) []

/-- Map lookup (`versions[version]`); a missing key never happens in
`Lint`, so it is mapped to the empty group. -/
def lookupGroup : List (Int × VersionGroup) → Int → VersionGroup
  | [], _ => ⟨[], []⟩
  | (k, g) :: rest, v => if k = v then g else lookupGroup rest v

/-- The helper `joinPaths` in `lint.go`: the paths, comma-joined. -/
def joinPaths (ms : List Migration) : List Char :=
  List.intercalate (", ".toList) (ms.map (fun m => m.path))

/-- The call `sort.Slice(versionKeys, ...)` with `<` on distinct keys: ascending
order. -/
def sortKeys (l : List Int) : List Int := l.insertionSort (fun a b => a ≤ b)

/-- The duplicate rule of `Lint` (`lint.go` lines 249–256). -/
def dupChecks (v : Int) (g : VersionGroup) : List Violation :=
  (if 1 < g.up.length then [.duplicateUp v (joinPaths g.up)] else []) ++
  (if 1 < g.down.length then [.duplicateDown v (joinPaths g.down)] else [])

/-- The pairing rule of `Lint` (`lint.go` lines 258–267). -/
def pairChecks (cfg : Config) (v : Int) (g : VersionGroup) : List Violation :=
  if cfg.requireDown then
    (if 0 < g.up.length ∧ g.down.length = 0 then [.missingDown v] else []) ++
    (if 0 < g.down.length ∧ g.up.length = 0 then [.missingUp v] else [])
  else []

/-- The name/extension consistency rule of `Lint` (`lint.go` lines
269–276). -/
def nameMatchChecks (cfg : Config) (v : Int) (g : VersionGroup) : List Violation :=
  match cfg.strictNameMatch, g.up, g.down with
  | true, [u], [d] =>
    if u.namePart ≠ d.namePart ∨ u.extPart ≠ d.extPart then
      [.nameExtMismatch v u.fileName d.fileName]
    else []
  | _, _, _ => []

/-- The per-version checks of `Lint` (`lint.go` lines 247–277):
duplicates, pairing, and name/extension consistency, in emission order. -/
def versionChecks (cfg : Config) (v : Int) (g : VersionGroup) : List Violation :=
  dupChecks v g ++ pairChecks cfg v g ++ nameMatchChecks cfg v g

/-- All cross-group (per-version) violations, in ascending version order. -/
def crossViolations (cfg : Config) (gs : List (Int × VersionGroup)) : List Violation :=
  ((sortKeys (gs.map Prod.fst)).map (fun v => versionChecks cfg v (lookupGroup gs v))).flatten

/-- The body of the gap loop (`lint.go` lines 283–291) for one adjacent
pair `(prev, cur)` of sorted versions: nothing when contiguous, one
violation when not. -/
def gapFor (p : Int × Int) : List Violation :=
  if p.2 ≠ p.1 + 1 then
    if p.1 + 1 = p.2 - 1 then [.missingSingle (p.1 + 1) p.1 p.2]
    else [.missingRange (p.1 + 1) (p.2 - 1) p.1 p.2]
  else []

/-- The gap loop of `Lint` (`lint.go` lines 280–292) over the sorted
distinct versions. -/
def gapViolations : List Int → List Violation
  | a :: b :: rest => gapFor (a, b) ++ gapViolations (b :: rest)
  | _ => []

/-- The classified records of a run, in entry order. -/
def lintRecords (cfg : Config) (entries : List (List Char)) :
    List (Bool × Int × Migration) :=
  (entries.map (classifyEntry cfg)).filterMap Prod.snd

/-- The final version map of a run. -/
def lintGroups (cfg : Config) (entries : List (List Char)) : List (Int × VersionGroup) :=
  buildGroups (lintRecords cfg entries)

/-- The up-records collected for version `v`, in entry order. -/
def upsAt (cfg : Config) (entries : List (List Char)) (v : Int) : List Migration :=
  (((lintRecords cfg entries).filter (fun r => r.1 && r.2.1 == v)).map (fun r => r.2.2))

/-- The down-records collected for version `v`, in entry order. -/
def downsAt (cfg : Config) (entries : List (List Char)) (v : Int) : List Migration :=
  (((lintRecords cfg entries).filter (fun r => !r.1 && r.2.1 == v)).map (fun r => r.2.2))

/-- The function `Lint` (`lint.go` lines 129–296) on the regular-file names of the
directory, in listing order: per-entry violations, then per-version
violations in ascending version order, then the gap violations. -/
def Lint (cfg : Config) (entries : List (List Char)) : List Violation :=
  ((entries.map (classifyEntry cfg)).map Prod.fst).flatten ++
    crossViolations cfg (lintGroups cfg entries) ++
    (if cfg.noGaps ∧ lintGroups cfg entries ≠ [] then
      gapViolations (sortKeys ((lintGroups cfg entries).map Prod.fst))
    else [])

/-! ### Matcher metatheory: the version split and the greedy splitter -/

/-- If a character fails the class, `takeWhile`/`dropWhile` split exactly at
it. -/
theorem takeWhile_append_of_all (p : Char → Bool) (v r : List Char) (c : Char)
    (hv : v.all p = true) (hc : p c = false) :
    (v ++ c :: r).takeWhile p = v ∧ (v ++ c :: r).dropWhile p = c :: r := by
  induction v with
  | nil => simp [List.takeWhile_cons, List.dropWhile_cons, hc]
  | cons a v ih =>
    simp only [List.all_cons, Bool.and_eq_true] at hv
    have h2 := ih hv.2
    simp [List.takeWhile_cons, List.dropWhile_cons, hv.1, h2.1, h2.2]

/-- Characterization of the leading `^([0-9]+)_` split. -/
theorem splitVersion_eq_some {s v r : List Char} :
    splitVersion s = some (v, r) ↔
      (s = v ++ '_' :: r ∧ v ≠ [] ∧ v.all isDigitChar = true) := by
  constructor
  · intro h
    unfold splitVersion at h
    split_ifs at h with hc
    · obtain ⟨hne, hhead⟩ := hc
      simp only [Option.some.injEq, Prod.mk.injEq] at h
      obtain ⟨hv, hr⟩ := h
      cases hd : s.dropWhile isDigitChar with
      | nil => rw [hd] at hhead; exact absurd hhead (by simp)
      | cons b l =>
        rw [hd] at hhead
        have hb : b = '_' := by simpa using hhead
        rw [hd] at hr
        simp only [List.tail_cons] at hr
        refine ⟨?_, ?_, ?_⟩
        · rw [← List.takeWhile_append_dropWhile isDigitChar s, hv, hd, hb, hr]
        · rw [← hv]; exact hne
        · rw [← hv]; exact List.all_takeWhile ..
  · rintro ⟨rfl, hne, hall⟩
    have hsp := takeWhile_append_of_all isDigitChar v r '_' hall (by decide)
    simp [splitVersion, hsp.1, hsp.2, hne]

/-- Soundness of the greedy splitter: a successful split really is a split. -/
theorem greedySplit_sound {α : Type} (tail : List Char → Option α) :
    ∀ (r n : List Char) (a : α), greedySplit tail r = some (n, a) →
      ∃ t, r = n ++ t ∧ n.all dotAny = true ∧ tail t = some a := by
  intro r
  induction r with
  | nil =>
    intro n a h
    simp only [greedySplit, Option.map_eq_some'] at h
    obtain ⟨x, hx, hpair⟩ := h
    simp only [Prod.mk.injEq] at hpair
    obtain ⟨hn, ha⟩ := hpair
    exact ⟨[], by simp [← hn], by rw [← hn]; rfl, by rw [ha] at hx; exact hx⟩
  | cons c r ih =>
    intro n a h
    simp only [greedySplit] at h
    by_cases hc : dotAny c = true
    · rw [if_pos hc] at h
      cases hg : greedySplit tail r with
      | some p =>
        rw [hg] at h
        simp only [Option.some.injEq, Prod.mk.injEq] at h
        obtain ⟨hn, ha⟩ := h
        obtain ⟨t, ht, hall, htail⟩ := ih p.1 p.2 (by rw [hg])
        refine ⟨t, ?_, ?_, ?_⟩
        · rw [← hn, List.cons_append, ← ht]
        · rw [← hn]; simp [hc, hall]
        · rw [← ha]; exact htail
      | none =>
        rw [hg] at h
        simp only [Option.map_eq_some'] at h
        obtain ⟨x, hx, hpair⟩ := h
        simp only [Prod.mk.injEq] at hpair
        obtain ⟨hn, ha⟩ := hpair
        exact ⟨c :: r, by rw [← hn]; rfl, by rw [← hn]; rfl, by rw [ha] at hx; exact hx⟩
    · rw [if_neg hc] at h
      simp only [Option.map_eq_some'] at h
      obtain ⟨x, hx, hpair⟩ := h
      simp only [Prod.mk.injEq] at hpair
      obtain ⟨hn, ha⟩ := hpair
      exact ⟨c :: r, by rw [← hn]; rfl, by rw [← hn]; rfl, by rw [ha] at hx; exact hx⟩

/-- Completeness of the greedy splitter: if any valid split exists, the
splitter succeeds. -/
theorem greedySplit_complete {α : Type} (tail : List Char → Option α) :
    ∀ (n t : List Char) (a : α), n.all dotAny = true → tail t = some a →
      (greedySplit tail (n ++ t)).isSome = true := by
  intro n
  induction n with
  | nil =>
    intro t a _ htail
    cases t with
    | nil => simp [greedySplit, htail]
    | cons c r =>
      simp only [List.nil_append, greedySplit]
      by_cases hc : dotAny c = true
      · rw [if_pos hc]
        cases hg : greedySplit tail r with
        | some p => simp
        | none => simp [htail]
      · rw [if_neg hc]; simp [htail]
  | cons c n ih =>
    intro t a hall htail
    simp only [List.all_cons, Bool.and_eq_true] at hall
    have hrec := ih t a hall.2 htail
    simp only [List.cons_append, greedySplit, if_pos hall.1]
    cases hg : greedySplit tail (n ++ t) with
    | some p => simp
    | none => rw [hg] at hrec; exact absurd hrec (by simp)

/-- Maximality of the greedy splitter: the returned head is at least as long
as the head of any valid split. -/
theorem greedySplit_max {α : Type} (tail : List Char → Option α) :
    ∀ (r n : List Char) (a : α), greedySplit tail r = some (n, a) →
      ∀ (n' t' : List Char) (a' : α), r = n' ++ t' → n'.all dotAny = true →
        tail t' = some a' → n'.length ≤ n.length := by
  intro r
  induction r with
  | nil =>
    intro n a _ n' t' a' heq _ _
    have hn' : n' = [] := by
      cases n' with
      | nil => rfl
      | cons c m => exact absurd heq.symm (by simp)
    simp [hn']
  | cons c r ih =>
    intro n a h n' t' a' heq hall' htail'
    simp only [greedySplit] at h
    cases n' with
    | nil => simp
    | cons c' m =>
      simp only [List.cons_append] at heq
      injection heq with heqc heqr
      subst heqc
      simp only [List.all_cons, Bool.and_eq_true] at hall'
      by_cases hc : dotAny c = true
      · rw [if_pos hc] at h
        cases hg : greedySplit tail r with
        | some p =>
          rw [hg] at h
          simp only [Option.some.injEq, Prod.mk.injEq] at h
          obtain ⟨hn, _⟩ := h
          have := ih p.1 p.2 (by rw [hg]) m t' a' heqr hall'.2 htail'
          rw [← hn]
          simpa using Nat.succ_le_succ this
        | none =>
          have hcomp := greedySplit_complete tail m t' a' hall'.2 htail'
          rw [← heqr, hg] at hcomp
          exact absurd hcomp (by simp)
      · exact absurd hall'.1 hc

/-- Characterization of the canonical tail `\.(up|down)\.(.+)$`. -/
theorem dirSplit_eq_some {t d e : List Char} :
    dirSplit t = some (d, e) ↔
      ((d = upTok ∨ d = downTok) ∧ t = '.' :: (d ++ '.' :: e)
        ∧ e ≠ [] ∧ e.all dotAny = true) := by
  constructor
  · intro h
    unfold dirSplit at h
    split_ifs at h with h1 h2
    · obtain ⟨ht, hne, hall⟩ := h1
      simp only [Option.some.injEq, Prod.mk.injEq] at h
      obtain ⟨hd, he⟩ := h
      refine ⟨Or.inl hd.symm, ?_, by rw [← he]; exact hne, by rw [← he]; exact hall⟩
      rw [← hd, ← he, ← List.take_append_drop 4 t, ht]
      simp [upTok]
    · obtain ⟨ht, hne, hall⟩ := h2
      simp only [Option.some.injEq, Prod.mk.injEq] at h
      obtain ⟨hd, he⟩ := h
      refine ⟨Or.inr hd.symm, ?_, by rw [← he]; exact hne, by rw [← he]; exact hall⟩
      rw [← hd, ← he, ← List.take_append_drop 6 t, ht]
      simp [downTok]
  · rintro ⟨hd, rfl, hne, hall⟩
    rcases hd with rfl | rfl
    · have h4 : ('.' :: (upTok ++ '.' :: e)).take 4 = ['.', 'u', 'p', '.'] := by
        simp [upTok]
      have h4' : ('.' :: (upTok ++ '.' :: e)).drop 4 = e := by simp [upTok]
      unfold dirSplit
      rw [if_pos ⟨h4, by rw [h4']; exact hne, by rw [h4']; exact hall⟩, h4']
    · have h6 : ('.' :: (downTok ++ '.' :: e)).take 6 = ['.', 'd', 'o', 'w', 'n', '.'] := by
        simp [downTok]
      have h6' : ('.' :: (downTok ++ '.' :: e)).drop 6 = e := by simp [downTok]
      have hnot : ¬ (('.' :: (downTok ++ '.' :: e)).take 4 = ['.', 'u', 'p', '.']
          ∧ ('.' :: (downTok ++ '.' :: e)).drop 4 ≠ []
          ∧ (('.' :: (downTok ++ '.' :: e)).drop 4).all dotAny = true) := by
        rintro ⟨hx, -, -⟩
        simp [downTok] at hx
      unfold dirSplit
      rw [if_neg hnot, if_pos ⟨h6, by rw [h6']; exact hne, by rw [h6']; exact hall⟩, h6']

/-- Characterization of the optional-extension part `(?:\.(.*))?$`. -/
theorem afterDir_eq_some {rest e : List Char} :
    afterDir rest = some e ↔
      ((rest = [] ∧ e = []) ∨ (rest = '.' :: e ∧ e.all dotAny = true)) := by
  unfold afterDir
  split_ifs with h1 h2
  · subst h1
    constructor
    · intro h
      simp only [Option.some.injEq] at h
      exact Or.inl ⟨rfl, h.symm⟩
    · rintro (⟨-, rfl⟩ | ⟨h, -⟩)
      · rfl
      · exact absurd h (by simp)
  · obtain ⟨hh, ht⟩ := h2
    cases rest with
    | nil => exact absurd rfl h1
    | cons b l =>
      simp only [List.head?_cons, Option.some.injEq] at hh
      subst hh
      simp only [List.tail_cons] at ht ⊢
      constructor
      · intro h
        simp only [Option.some.injEq] at h
        subst h
        exact Or.inr ⟨rfl, ht⟩
      · rintro (⟨h, -⟩ | ⟨h, -⟩)
        · exact absurd h (by simp)
        · injection h with h0 h'
          rw [h']
  · constructor
    · intro h
      simp at h
    · rintro (⟨h, -⟩ | ⟨rfl, hall⟩)
      · exact absurd h h1
      · refine absurd ⟨by simp, ?_⟩ h2
        simpa using hall

/-- Characterization of the prefix tail `\.(up|down)(?:\.(.*))?$`. -/
theorem dirOptTail_eq_some {t d e : List Char} :
    dirOptTail t = some (d, e) ↔
      ((d = upTok ∨ d = downTok) ∧
        ((t = '.' :: d ∧ e = []) ∨ (t = '.' :: (d ++ '.' :: e) ∧ e.all dotAny = true))) := by
  constructor
  · intro h
    unfold dirOptTail at h
    split_ifs at h with h1 h2
    · simp only [Option.map_eq_some'] at h
      obtain ⟨e0, he0, hpair⟩ := h
      simp only [Prod.mk.injEq] at hpair
      obtain ⟨hd, he⟩ := hpair
      subst hd
      subst he
      refine ⟨Or.inl rfl, ?_⟩
      rcases afterDir_eq_some.mp he0 with ⟨hdnil, rfl⟩ | ⟨hdcons, hall⟩
      · refine Or.inl ⟨?_, rfl⟩
        rw [← List.take_append_drop 3 t, h1, hdnil]
        simp [upTok]
      · refine Or.inr ⟨?_, hall⟩
        rw [← List.take_append_drop 3 t, h1, hdcons]
        simp [upTok]
    · simp only [Option.map_eq_some'] at h
      obtain ⟨e0, he0, hpair⟩ := h
      simp only [Prod.mk.injEq] at hpair
      obtain ⟨hd, he⟩ := hpair
      subst hd
      subst he
      refine ⟨Or.inr rfl, ?_⟩
      rcases afterDir_eq_some.mp he0 with ⟨hdnil, rfl⟩ | ⟨hdcons, hall⟩
      · refine Or.inl ⟨?_, rfl⟩
        rw [← List.take_append_drop 5 t, h2, hdnil]
        simp [downTok]
      · refine Or.inr ⟨?_, hall⟩
        rw [← List.take_append_drop 5 t, h2, hdcons]
        simp [downTok]
  · rintro ⟨hd, hcase⟩
    rcases hd with rfl | rfl
    · rcases hcase with ⟨rfl, rfl⟩ | ⟨rfl, hall⟩
      · unfold dirOptTail
        rw [if_pos (by simp [upTok])]
        have hdrop : ('.' :: upTok).drop 3 = [] := by simp [upTok]
        rw [hdrop]
        simp [afterDir]
      · unfold dirOptTail
        rw [if_pos (by simp [upTok])]
        have hdrop : ('.' :: (upTok ++ '.' :: e)).drop 3 = '.' :: e := by simp [upTok]
        rw [hdrop]
        have : afterDir ('.' :: e) = some e := by
          exact afterDir_eq_some.mpr (Or.inr ⟨rfl, hall⟩)
        simp [this]
    · rcases hcase with ⟨rfl, rfl⟩ | ⟨rfl, hall⟩
      · unfold dirOptTail
        rw [if_neg (by simp [downTok]), if_pos (by simp [downTok])]
        have hdrop : ('.' :: downTok).drop 5 = [] := by simp [downTok]
        rw [hdrop]
        simp [afterDir]
      · unfold dirOptTail
        rw [if_neg (by simp [downTok]), if_pos (by simp [downTok])]
        have hdrop : ('.' :: (downTok ++ '.' :: e)).drop 5 = '.' :: e := by simp [downTok]
        rw [hdrop]
        have : afterDir ('.' :: e) = some e := by
          exact afterDir_eq_some.mpr (Or.inr ⟨rfl, hall⟩)
        simp [this]

/-- Soundness of a greedy non-empty name before a tail matcher. -/
theorem nameSplit_sound {α : Type} (tail : List Char → Option α) {r n : List Char} {a : α}
    (h : nameSplit tail r = some (n, a)) :
    ∃ t, r = n ++ t ∧ n ≠ [] ∧ n.all dotAny = true ∧ tail t = some a := by
  cases r with
  | nil => exact absurd h (by simp [nameSplit])
  | cons c r0 =>
    simp only [nameSplit] at h
    split_ifs at h with hc
    · simp only [Option.map_eq_some'] at h
      obtain ⟨⟨n0, a0⟩, hp, hpair⟩ := h
      simp only [Prod.mk.injEq] at hpair
      obtain ⟨hn, ha⟩ := hpair
      obtain ⟨t, ht, hall, htail⟩ := greedySplit_sound tail r0 n0 a0 hp
      refine ⟨t, ?_, ?_, ?_, ?_⟩
      · rw [← hn, List.cons_append, ← ht]
      · rw [← hn]; simp
      · rw [← hn]; simp [hc, hall]
      · rw [← ha]; exact htail

/-- Completeness of a greedy non-empty name before a tail matcher. -/
theorem nameSplit_complete {α : Type} (tail : List Char → Option α) {n t : List Char} {a : α}
    (hne : n ≠ []) (hall : n.all dotAny = true) (ht : tail t = some a) :
    (nameSplit tail (n ++ t)).isSome = true := by
  obtain ⟨c, n0, rfl⟩ := List.exists_cons_of_ne_nil hne
  simp only [List.all_cons, Bool.and_eq_true] at hall
  have hrec := greedySplit_complete tail n0 t a hall.2 ht
  simp only [List.cons_append, nameSplit]
  rw [if_pos hall.1]
  cases hg : greedySplit tail (n0 ++ t) with
  | some p => simp
  | none => rw [hg] at hrec; exact absurd hrec (by simp)

/-- Maximality of a greedy non-empty name before a tail matcher. -/
theorem nameSplit_max {α : Type} (tail : List Char → Option α) {r n : List Char} {a : α}
    (h : nameSplit tail r = some (n, a)) {n' t' : List Char} {a' : α}
    (heq : r = n' ++ t') (hne' : n' ≠ []) (hall' : n'.all dotAny = true)
    (ht' : tail t' = some a') : n'.length ≤ n.length := by
  obtain ⟨c', m, rfl⟩ := List.exists_cons_of_ne_nil hne'
  cases r with
  | nil => exact absurd h (by simp [nameSplit])
  | cons c r0 =>
    simp only [List.cons_append] at heq
    injection heq with h1 h2
    subst h1
    simp only [List.all_cons, Bool.and_eq_true] at hall'
    simp only [nameSplit] at h
    split_ifs at h with hc
    · simp only [Option.map_eq_some'] at h
      obtain ⟨⟨n0, a0⟩, hp, hpair⟩ := h
      simp only [Prod.mk.injEq] at hpair
      obtain ⟨hn, _⟩ := hpair
      have := greedySplit_max tail r0 n0 a0 hp m t' a' h2 hall'.2 ht'
      rw [← hn]
      simpa using Nat.succ_le_succ this

/-! ### Characterization of the canonical pattern -/

/-- A decomposition of a filename into the canonical migration shape
`<digits>_<name>.<up|down>.<ext>`: non-empty digit version, non-empty
`.`-class name part and extension part. -/
def CanonicalShape (s v n d e : List Char) : Prop :=
  s = v ++ '_' :: (n ++ '.' :: (d ++ '.' :: e)) ∧
  v ≠ [] ∧ v.all isDigitChar = true ∧
  n ≠ [] ∧ n.all dotAny = true ∧
  (d = upTok ∨ d = downTok) ∧
  e ≠ [] ∧ e.all dotAny = true

/-- A digit run followed by an underscore splits a string uniquely. -/
theorem digit_underscore_unique :
    ∀ (v v' r r' : List Char), v ++ '_' :: r = v' ++ '_' :: r' →
      v.all isDigitChar = true → v'.all isDigitChar = true → v = v' ∧ r = r' := by
  intro v
  induction v with
  | nil =>
    intro v' r r' h hv hv'
    cases v' with
    | nil => simpa using h
    | cons c m =>
      simp only [List.nil_append, List.cons_append] at h
      injection h with h1 h2
      simp only [List.all_cons, Bool.and_eq_true] at hv'
      rw [← h1] at hv'
      exact absurd hv'.1 (by decide)
  | cons a v ih =>
    intro v' r r' h hv hv'
    cases v' with
    | nil =>
      simp only [List.cons_append, List.nil_append] at h
      injection h with h1 h2
      simp only [List.all_cons, Bool.and_eq_true] at hv
      rw [h1] at hv
      exact absurd hv.1 (by decide)
    | cons c m =>
      simp only [List.cons_append] at h
      injection h with h1 h2
      simp only [List.all_cons, Bool.and_eq_true] at hv hv'
      obtain ⟨hvm, hrm⟩ := ih m r r' h2 hv.2 hv'.2
      subst h1
      exact ⟨by rw [hvm], hrm⟩

/-- The direction-and-extension tail of the canonical shape is unique. -/
theorem dirTail_unique {d d' e e' : List Char}
    (h : d ++ '.' :: e = d' ++ '.' :: e')
    (hd : d = upTok ∨ d = downTok) (hd' : d' = upTok ∨ d' = downTok) :
    d = d' ∧ e = e' := by
  rcases hd with rfl | rfl <;> rcases hd' with rfl | rfl
  · simpa [upTok] using h
  · simp [upTok, downTok] at h
  · simp [upTok, downTok] at h
  · simpa [downTok] using h

/-- The canonical matcher succeeds exactly on canonical shapes, and its name
part is the longest over all decompositions (greedy `(.+)`). -/
theorem migratePattern_eq_some {s v n d e : List Char} :
    migratePattern s = some (v, n, d, e) ↔
      (CanonicalShape s v n d e ∧
        ∀ v' n' d' e', CanonicalShape s v' n' d' e' → n'.length ≤ n.length) := by
  constructor
  · intro h
    unfold migratePattern at h
    cases hsv : splitVersion s with
    | none => rw [hsv] at h; exact absurd h (by simp)
    | some p =>
      obtain ⟨v0, r⟩ := p
      rw [hsv] at h
      simp only [Option.map_eq_some'] at h
      obtain ⟨⟨n0, d0, e0⟩, hns, hpair⟩ := h
      simp only [Prod.mk.injEq] at hpair
      obtain ⟨hv0, hn0, hd0, he0⟩ := hpair
      subst hv0
      subst hn0
      subst hd0
      subst he0
      obtain ⟨hs, hvne, hvall⟩ := splitVersion_eq_some.mp hsv
      obtain ⟨t, htr, hnne, hnall, htail⟩ := nameSplit_sound dirSplit hns
      obtain ⟨hdd, htform, hene, heall⟩ := dirSplit_eq_some.mp htail
      constructor
      · exact ⟨by rw [hs, htr, htform], hvne, hvall, hnne, hnall, hdd, hene, heall⟩
      · rintro v' n' d' e' ⟨hs', hvne', hvall', hnne', hnall', hdd', hene', heall'⟩
        have hsv2 : v0 ++ '_' :: r = v' ++ '_' :: (n' ++ '.' :: (d' ++ '.' :: e')) := by
          rw [← hs, hs']
        obtain ⟨hveq, hreq⟩ :=
          digit_underscore_unique v0 v' r (n' ++ '.' :: (d' ++ '.' :: e')) hsv2 hvall hvall'
        have htail' : dirSplit ('.' :: (d' ++ '.' :: e')) = some (d', e') :=
          dirSplit_eq_some.mpr ⟨hdd', rfl, hene', heall'⟩
        exact nameSplit_max dirSplit hns hreq hnne' hnall' htail'
  · rintro ⟨⟨hs, hvne, hvall, hnne, hnall, hdd, hene, heall⟩, hmax⟩
    have hsv : splitVersion s = some (v, n ++ '.' :: (d ++ '.' :: e)) :=
      splitVersion_eq_some.mpr ⟨hs, hvne, hvall⟩
    have htail : dirSplit ('.' :: (d ++ '.' :: e)) = some (d, e) :=
      dirSplit_eq_some.mpr ⟨hdd, rfl, hene, heall⟩
    have hsome := nameSplit_complete dirSplit hnne hnall htail
    cases hns : nameSplit dirSplit (n ++ '.' :: (d ++ '.' :: e)) with
    | none => rw [hns] at hsome; exact absurd hsome (by simp)
    | some q =>
      obtain ⟨n1, d1, e1⟩ := q
      obtain ⟨t1, ht1, hn1ne, hn1all, htail1⟩ := nameSplit_sound dirSplit hns
      obtain ⟨hdd1, ht1form, he1ne, he1all⟩ := dirSplit_eq_some.mp htail1
      have hshape1 : CanonicalShape s v n1 d1 e1 :=
        ⟨by rw [hs, ht1, ht1form], hvne, hvall, hn1ne, hn1all, hdd1, he1ne, he1all⟩
      have hle1 : n1.length ≤ n.length := hmax v n1 d1 e1 hshape1
      have hle2 : n.length ≤ n1.length :=
        nameSplit_max dirSplit hns rfl hnne hnall htail
      have happ : n1 ++ t1 = n ++ '.' :: (d ++ '.' :: e) := ht1.symm
      obtain ⟨hneq, hteq⟩ := List.append_inj happ (le_antisymm hle1 hle2)
      have hdde : '.' :: (d1 ++ '.' :: e1) = '.' :: (d ++ '.' :: e) := by
        rw [← ht1form, hteq]
      injection hdde with hdot hdde2
      obtain ⟨hdeq, heeq⟩ := dirTail_unique hdde2 hdd1 hdd
      simp [migratePattern, hsv, hns, hneq, hdeq, heeq]

/-! ### The prefix pattern against the canonical pattern -/

/-- The direction-token (prefix) pattern also demands a leading digit run
followed by an underscore. -/
theorem hasDirectionToken_digits {s : List Char} (h : hasDirectionToken s = true) :
    ∃ v r, s = v ++ '_' :: r ∧ v ≠ [] ∧ v.all isDigitChar = true := by
  unfold hasDirectionToken migrationPrefixRe at h
  cases hsv : splitVersion s with
  | none => rw [hsv] at h; simp at h
  | some p =>
    obtain ⟨v, r⟩ := p
    obtain ⟨hs, hne, hall⟩ := splitVersion_eq_some.mp hsv
    exact ⟨v, r, hs, hne, hall⟩

/-- On a canonically matching name, the prefix pattern also matches, and its
optional extension submatch is either the canonical extension part or empty
(the prefix match may extend the name past the canonical direction when the
filename ends in a further bare or trailing-dot direction token). -/
theorem prefix_of_canonical {s v n d e : List Char}
    (hc : migratePattern s = some (v, n, d, e)) :
    hasDirectionToken s = true ∧ (extPartOptOf s = e ∨ extPartOptOf s = []) := by
  obtain ⟨⟨hs, hvne, hvall, hnne, hnall, hdd, hene, heall⟩, hmax⟩ :=
    migratePattern_eq_some.mp hc
  have hsv : splitVersion s = some (v, n ++ '.' :: (d ++ '.' :: e)) :=
    splitVersion_eq_some.mpr ⟨hs, hvne, hvall⟩
  have htail : dirOptTail ('.' :: (d ++ '.' :: e)) = some (d, e) :=
    dirOptTail_eq_some.mpr ⟨hdd, Or.inr ⟨rfl, heall⟩⟩
  have hsome := nameSplit_complete dirOptTail hnne hnall htail
  cases hns : nameSplit dirOptTail (n ++ '.' :: (d ++ '.' :: e)) with
  | none => rw [hns] at hsome; exact absurd hsome (by simp)
  | some q =>
    obtain ⟨n1, d1, e1⟩ := q
    have hpre : migrationPrefixRe s = some (v, n1, d1, e1) := by
      simp [migrationPrefixRe, hsv, hns]
    have hopt : extPartOptOf s = e1 := by
      simp [extPartOptOf, hpre]
    refine ⟨by simp [hasDirectionToken, hpre], ?_⟩
    obtain ⟨t1, ht1, hn1ne, hn1all, htail1⟩ := nameSplit_sound dirOptTail hns
    obtain ⟨hdd1, hcase⟩ := dirOptTail_eq_some.mp htail1
    rcases hcase with ⟨ht1form, he1nil⟩ | ⟨ht1form, he1all⟩
    · right
      rw [hopt, he1nil]
    · by_cases he1 : e1 = []
      · right
        rw [hopt, he1]
      · left
        have hshape1 : CanonicalShape s v n1 d1 e1 :=
          ⟨by rw [hs, ht1, ht1form], hvne, hvall, hn1ne, hn1all, hdd1, he1, he1all⟩
        have hle1 : n1.length ≤ n.length := hmax v n1 d1 e1 hshape1
        have hle2 : n.length ≤ n1.length :=
          nameSplit_max dirOptTail hns rfl hnne hnall htail
        have happ : n1 ++ t1 = n ++ '.' :: (d ++ '.' :: e) := ht1.symm
        obtain ⟨hneq, hteq⟩ := List.append_inj happ (le_antisymm hle1 hle2)
        have hdde : '.' :: (d1 ++ '.' :: e1) = '.' :: (d ++ '.' :: e) := by
          rw [← ht1form, hteq]
        injection hdde with hdot hdde2
        obtain ⟨hdeq, heeq⟩ := dirTail_unique hdde2 hdd1 hdd
        rw [hopt, heeq]

/-! ### Rule-engine lemmas: grouping -/

/-- Looking a key up after inserting one record. -/
theorem lookupGroup_insertRecord (gs : List (Int × VersionGroup)) (v : Int) (isUp : Bool)
    (m : Migration) (w : Int) :
    lookupGroup (insertRecord gs v isUp m) w =
      if w = v then addToGroup (lookupGroup gs v) isUp m else lookupGroup gs w := by
  induction gs with
  | nil =>
    by_cases hw : w = v
    · subst hw
      simp [insertRecord, lookupGroup]
    · have h1 : ¬ v = w := fun h => hw h.symm
      simp [insertRecord, lookupGroup, hw, h1]
  | cons kg rest ih =>
    obtain ⟨k, g⟩ := kg
    by_cases hk : k = v
    · subst hk
      by_cases hw : k = w
      · subst hw
        simp [insertRecord, lookupGroup]
      · have h1 : ¬ w = k := fun h => hw h.symm
        simp [insertRecord, lookupGroup, hw, h1]
    · by_cases hw : k = w
      · subst hw
        simp [insertRecord, lookupGroup, hk]
      · simp [insertRecord, lookupGroup, hk, hw, ih]

/-- The fold building the version map collects, per key, exactly the
records with that key, in record order. -/
theorem lookupGroup_foldl (recs : List (Bool × Int × Migration))
    (gs : List (Int × VersionGroup)) (w : Int) :
    lookupGroup (recs.foldl (fun gs r => insertRecord gs r.2.1 r.1 r.2.2) gs) w =
      ⟨(lookupGroup gs w).up ++
          ((recs.filter (fun r => r.1 && r.2.1 == w)).map (fun r => r.2.2)),
        (lookupGroup gs w).down ++
          ((recs.filter (fun r => !r.1 && r.2.1 == w)).map (fun r => r.2.2))⟩ := by
  induction recs generalizing gs with
  | nil => simp
  | cons r recs ih =>
    obtain ⟨isUp, v, m⟩ := r
    simp only [List.foldl_cons]
    rw [ih, lookupGroup_insertRecord]
    by_cases hw : w = v
    · subst hw
      cases isUp with
      | true => simp [addToGroup, List.filter_cons]
      | false => simp [addToGroup, List.filter_cons]
    · have : ¬ v = w := fun h => hw h.symm
      simp [hw, List.filter_cons, this]

/-- Evaluating `lookupGroup` over the built map, in terms of the record list. -/
theorem lookupGroup_buildGroups (recs : List (Bool × Int × Migration)) (w : Int) :
    lookupGroup (buildGroups recs) w =
      ⟨(recs.filter (fun r => r.1 && r.2.1 == w)).map (fun r => r.2.2),
        (recs.filter (fun r => !r.1 && r.2.1 == w)).map (fun r => r.2.2)⟩ := by
  have h := lookupGroup_foldl recs [] w
  simpa [buildGroups, lookupGroup] using h

/-- The keys after an insertion: unchanged, or the new key appended. -/
theorem keys_insertRecord (gs : List (Int × VersionGroup)) (v : Int) (isUp : Bool)
    (m : Migration) :
    (insertRecord gs v isUp m).map Prod.fst =
      if v ∈ gs.map Prod.fst then gs.map Prod.fst else gs.map Prod.fst ++ [v] := by
  induction gs with
  | nil => simp [insertRecord]
  | cons kg rest ih =>
    obtain ⟨k, g⟩ := kg
    by_cases hk : k = v
    · subst hk
      simp [insertRecord]
    · have hvk : ¬ v = k := fun h => hk h.symm
      by_cases hmem : v ∈ rest.map Prod.fst
      · simp [insertRecord, hk, ih, hmem, hvk]
      · simp [insertRecord, hk, ih, hmem, hvk]

/-- Key membership after an insertion. -/
theorem mem_keys_insertRecord (gs : List (Int × VersionGroup)) (v : Int) (isUp : Bool)
    (m : Migration) (w : Int) :
    w ∈ (insertRecord gs v isUp m).map Prod.fst ↔ (w ∈ gs.map Prod.fst ∨ w = v) := by
  rw [keys_insertRecord]
  by_cases hv : v ∈ gs.map Prod.fst
  · rw [if_pos hv]
    constructor
    · exact Or.inl
    · rintro (h | rfl)
      · exact h
      · exact hv
  · rw [if_neg hv]
    simp

/-- Insertion preserves key distinctness. -/
theorem nodup_keys_insertRecord (gs : List (Int × VersionGroup)) (v : Int) (isUp : Bool)
    (m : Migration) (h : (gs.map Prod.fst).Nodup) :
    ((insertRecord gs v isUp m).map Prod.fst).Nodup := by
  rw [keys_insertRecord]
  by_cases hv : v ∈ gs.map Prod.fst
  · rw [if_pos hv]
    exact h
  · rw [if_neg hv]
    rw [List.nodup_append]
    refine ⟨h, List.nodup_singleton v, ?_⟩
    intro a ha hav
    rw [List.mem_singleton] at hav
    subst hav
    exact hv ha

/-- The built map has distinct keys. -/
theorem nodup_keys_buildGroups (recs : List (Bool × Int × Migration)) :
    ((buildGroups recs).map Prod.fst).Nodup := by
  suffices h : ∀ gs : List (Int × VersionGroup), (gs.map Prod.fst).Nodup →
      (((recs.foldl (fun gs r => insertRecord gs r.2.1 r.1 r.2.2) gs)).map Prod.fst).Nodup by
    exact h [] (by simp)
  induction recs with
  | nil => intro gs hgs; simpa using hgs
  | cons r recs ih =>
    intro gs hgs
    simp only [List.foldl_cons]
    exact ih _ (nodup_keys_insertRecord gs r.2.1 r.1 r.2.2 hgs)

/-- A version is a key of the built map exactly when some record carries
it. -/
theorem mem_keys_buildGroups (recs : List (Bool × Int × Migration)) (w : Int) :
    w ∈ (buildGroups recs).map Prod.fst ↔ ∃ r ∈ recs, r.2.1 = w := by
  suffices h : ∀ gs : List (Int × VersionGroup),
      (w ∈ ((recs.foldl (fun gs r => insertRecord gs r.2.1 r.1 r.2.2) gs)).map Prod.fst ↔
        (w ∈ gs.map Prod.fst ∨ ∃ r ∈ recs, r.2.1 = w)) by
    have := h []
    simpa [buildGroups] using this
  induction recs with
  | nil => intro gs; simp
  | cons r recs ih =>
    intro gs
    simp only [List.foldl_cons]
    rw [ih]
    rw [mem_keys_insertRecord]
    constructor
    · rintro ((h | rfl) | ⟨r', hr', hw⟩)
      · exact Or.inl h
      · exact Or.inr ⟨r, by simp⟩
      · exact Or.inr ⟨r', by simp [hr'], hw⟩
    · rintro (h | ⟨r', hr', hw⟩)
      · exact Or.inl (Or.inl h)
      · rcases List.mem_cons.mp hr' with rfl | hmem
        · exact Or.inl (Or.inr hw.symm)
        · exact Or.inr ⟨r', hmem, hw⟩

/-! ### Violation classes and counting helpers -/

/-- The version a per-version violation carries (`0` for the per-entry and
gap constructors, which never occur in the per-version phase). -/
def violVersion : Violation → Int
  | .duplicateUp v _ => v
  | .duplicateDown v _ => v
  | .missingDown v => v
  | .missingUp v => v
  | .nameExtMismatch v _ _ => v
  | _ => 0

/-- Whether a violation is one of the four per-entry kinds. -/
def isPerEntryV : Violation → Bool
  | .extMismatch _ _ _ _ => true
  | .unmatched _ => true
  | .versionParseError _ => true
  | .digitsMismatch _ _ _ => true
  | _ => false

/-- Whether a violation is one of the two gap kinds. -/
def isGapV : Violation → Bool
  | .missingSingle _ _ _ => true
  | .missingRange _ _ _ _ => true
  | _ => false

/-- Extension-mismatch detector. -/
def isExtMismatchV : Violation → Bool
  | .extMismatch _ _ _ _ => true
  | _ => false

/-- Unmatched-file detector. -/
def isUnmatchedV : Violation → Bool
  | .unmatched _ => true
  | _ => false

/-- Digit-width-mismatch detector. -/
def isDigitsMismatchV : Violation → Bool
  | .digitsMismatch _ _ _ => true
  | _ => false

/-- Name/extension-mismatch detector for a given version. -/
def isNameExtAt (v : Int) : Violation → Bool
  | .nameExtMismatch w _ _ => w == v
  | _ => false

/-- Membership in a guarded singleton. -/
theorem mem_ite_singleton {α : Type} {c : Prop} [Decidable c] {x a : α}
    (h : x ∈ (if c then [a] else [])) : x = a := by
  split at h
  · simpa using h
  · simp at h

/-- Elements of the duplicate rule's output. -/
theorem dupChecks_shape (v : Int) (g : VersionGroup) : ∀ x ∈ dupChecks v g,
    x = .duplicateUp v (joinPaths g.up) ∨ x = .duplicateDown v (joinPaths g.down) := by
  intro x hx
  unfold dupChecks at hx
  rcases List.mem_append.mp hx with hx | hx
  · exact Or.inl (mem_ite_singleton hx)
  · exact Or.inr (mem_ite_singleton hx)

/-- Elements of the pairing rule's output. -/
theorem pairChecks_shape (cfg : Config) (v : Int) (g : VersionGroup) :
    ∀ x ∈ pairChecks cfg v g, x = .missingDown v ∨ x = .missingUp v := by
  intro x hx
  unfold pairChecks at hx
  split at hx
  · rcases List.mem_append.mp hx with hx | hx
    · exact Or.inl (mem_ite_singleton hx)
    · exact Or.inr (mem_ite_singleton hx)
  · simp at hx

/-- Elements of the name/extension rule's output. -/
theorem nameMatchChecks_shape (cfg : Config) (v : Int) (g : VersionGroup) :
    ∀ x ∈ nameMatchChecks cfg v g, ∃ a b, x = .nameExtMismatch v a b := by
  intro x hx
  unfold nameMatchChecks at hx
  split at hx
  · exact ⟨_, _, mem_ite_singleton hx⟩
  · simp at hx

/-- Every per-version violation carries its version. -/
theorem versionChecks_version (cfg : Config) (v : Int) (g : VersionGroup) :
    ∀ x ∈ versionChecks cfg v g, violVersion x = v := by
  intro x hx
  unfold versionChecks at hx
  rcases List.mem_append.mp hx with hx | hx
  rcases List.mem_append.mp hx with hx | hx
  · rcases dupChecks_shape v g x hx with rfl | rfl <;> rfl
  · rcases pairChecks_shape cfg v g x hx with rfl | rfl <;> rfl
  · obtain ⟨a, b, rfl⟩ := nameMatchChecks_shape cfg v g x hx
    rfl

/-- Per-version violations are neither per-entry nor gap violations. -/
theorem versionChecks_class (cfg : Config) (v : Int) (g : VersionGroup) :
    ∀ x ∈ versionChecks cfg v g, isPerEntryV x = false ∧ isGapV x = false := by
  intro x hx
  unfold versionChecks at hx
  rcases List.mem_append.mp hx with hx | hx
  rcases List.mem_append.mp hx with hx | hx
  · rcases dupChecks_shape v g x hx with rfl | rfl <;> exact ⟨rfl, rfl⟩
  · rcases pairChecks_shape cfg v g x hx with rfl | rfl <;> exact ⟨rfl, rfl⟩
  · obtain ⟨a, b, rfl⟩ := nameMatchChecks_shape cfg v g x hx
    exact ⟨rfl, rfl⟩

/-- Elements of one gap-loop step. -/
theorem gapFor_shape (p : Int × Int) : ∀ x ∈ gapFor p, isGapV x = true := by
  intro x hx
  unfold gapFor at hx
  split at hx
  · split at hx
    · rw [List.mem_singleton.mp hx]
      rfl
    · rw [List.mem_singleton.mp hx]
      rfl
  · simp at hx

/-- Elements of the gap rule's output. -/
theorem gapViolations_shape : ∀ (l : List Int), ∀ x ∈ gapViolations l, isGapV x = true := by
  intro l
  induction l with
  | nil => intro x hx; simp [gapViolations] at hx
  | cons a l ih =>
    cases l with
    | nil => intro x hx; simp [gapViolations] at hx
    | cons b rest =>
      intro x hx
      simp only [gapViolations, List.mem_append] at hx
      rcases hx with hx | hx
      · exact gapFor_shape (a, b) x hx
      · exact ih x hx

/-- A sum over a list is concentrated on a single value. -/
theorem sum_map_eq_of_support {l : List Int} {v : Int} (f : Int → Nat)
    (hf : ∀ w ∈ l, w ≠ v → f w = 0) : (l.map f).sum = l.count v * f v := by
  induction l with
  | nil => simp
  | cons a l ih =>
    have ih' := ih (fun w hw => hf w (List.mem_cons_of_mem a hw))
    by_cases ha : a = v
    · subst ha
      simp only [List.map_cons, List.sum_cons, ih', List.count_cons_self, Nat.succ_mul]
      exact Nat.add_comm ..
    · have ha0 : f a = 0 := hf a (by simp) ha
      have hcnt : (a :: l).count v = l.count v := by
        simp [List.count_cons, ha, fun h : v = a => ha h.symm]
      simp [ha0, ih', hcnt]

/-- Counting, in the whole per-version phase, violations that can only come
from one version's checks. -/
theorem countP_crossViolations (cfg : Config) (gs : List (Int × VersionGroup))
    (p : Violation → Bool) (v : Int) (hp : ∀ x, p x = true → violVersion x = v)
    (hkeys : (gs.map Prod.fst).Nodup) :
    (crossViolations cfg gs).countP p =
      if v ∈ gs.map Prod.fst then (versionChecks cfg v (lookupGroup gs v)).countP p
      else 0 := by
  unfold crossViolations
  rw [List.countP_flatten, List.map_map]
  have hf : ∀ w ∈ sortKeys (gs.map Prod.fst), w ≠ v →
      (List.countP p ∘ fun w => versionChecks cfg w (lookupGroup gs w)) w = 0 := by
    intro w hw hwv
    simp only [Function.comp_apply]
    rw [List.countP_eq_zero]
    intro x hx hpx
    exact hwv (by rw [← hp x hpx, versionChecks_version cfg w (lookupGroup gs w) x hx])
  rw [sum_map_eq_of_support _ hf]
  have hperm : List.Perm (sortKeys (gs.map Prod.fst)) (gs.map Prod.fst) :=
    List.perm_insertionSort _ _
  rw [hperm.count_eq]
  by_cases hv : v ∈ gs.map Prod.fst
  · rw [if_pos hv, List.count_eq_one_of_mem hkeys hv, Nat.one_mul]
    rfl
  · rw [if_neg hv, List.count_eq_zero.mpr hv, Nat.zero_mul]

/-- The per-entry phase contributes no per-version or gap violations. -/
theorem countP_entry_phase_zero (cfg : Config) (entries : List (List Char))
    (p : Violation → Bool) (hp : ∀ x, p x = true → isPerEntryV x = false)
    (hshape : ∀ name, ∀ x ∈ (classifyEntry cfg name).1, isPerEntryV x = true) :
    (((entries.map (classifyEntry cfg)).map Prod.fst).flatten).countP p = 0 := by
  rw [List.countP_eq_zero]
  intro x hx hpx
  rw [List.mem_flatten] at hx
  obtain ⟨l, hl, hxl⟩ := hx
  rw [List.mem_map] at hl
  obtain ⟨pr, hpr, rfl⟩ := hl
  rw [List.mem_map] at hpr
  obtain ⟨name, hname, rfl⟩ := hpr
  have h1 := hshape name x hxl
  rw [hp x hpx] at h1
  exact absurd h1 (by simp)

/-- The gap phase contributes only gap violations. -/
theorem countP_gap_phase_zero (l : List Int) (p : Violation → Bool)
    (hp : ∀ x, p x = true → isGapV x = false) :
    (gapViolations l).countP p = 0 := by
  rw [List.countP_eq_zero]
  intro x hx hpx
  have h1 := gapViolations_shape l x hx
  rw [hp x hpx] at h1
  exact absurd h1 (by simp)

/-- Extension-enforcement errors are per-entry violations. -/
theorem entryExtErrs_shape (cfg : Config) (name : List Char) :
    ∀ x ∈ entryExtErrs cfg name, isPerEntryV x = true := by
  intro x hx
  unfold entryExtErrs at hx
  split at hx
  · split at hx
    · rw [List.mem_singleton.mp hx]
      rfl
    · simp at hx
  · simp at hx

/-- All violations of the per-entry phase are per-entry violations. -/
theorem classifyEntry_perEntry (cfg : Config) (name : List Char) :
    ∀ x ∈ (classifyEntry cfg name).1, isPerEntryV x = true := by
  intro x hx
  unfold classifyEntry at hx
  split at hx
  · simp only [List.mem_append] at hx
    rcases hx with hx | hx
    · exact entryExtErrs_shape cfg name x hx
    · rw [mem_ite_singleton hx]
      rfl
  · next vs np dir ep heq =>
    split at hx
    · exact entryExtErrs_shape cfg name x hx
    · split at hx
      · simp only [List.mem_append, List.mem_singleton] at hx
        rcases hx with hx | rfl
        · exact entryExtErrs_shape cfg name x hx
        · rfl
      · simp only [List.mem_append] at hx
        rcases hx with hx | hx
        · exact entryExtErrs_shape cfg name x hx
        · rw [mem_ite_singleton hx]
          rfl

/-- Looking up a version's group in the final map gives exactly the up- and
down-records collected for it, in entry order. -/
theorem lookupGroup_lintGroups (cfg : Config) (entries : List (List Char)) (v : Int) :
    lookupGroup (lintGroups cfg entries) v =
      ⟨upsAt cfg entries v, downsAt cfg entries v⟩ := by
  unfold lintGroups upsAt downsAt
  exact lookupGroup_buildGroups _ v

/-- Master counting lemma: a predicate satisfied only by per-version
violations of a single version `v` counts, over the whole output, exactly
its count in that version's checks. -/
theorem countP_Lint (cfg : Config) (entries : List (List Char)) (p : Violation → Bool)
    (v : Int)
    (hp1 : ∀ x, p x = true → isPerEntryV x = false)
    (hp2 : ∀ x, p x = true → isGapV x = false)
    (hp3 : ∀ x, p x = true → violVersion x = v) :
    (Lint cfg entries).countP p =
      if v ∈ (lintGroups cfg entries).map Prod.fst then
        (versionChecks cfg v ⟨upsAt cfg entries v, downsAt cfg entries v⟩).countP p
      else 0 := by
  unfold Lint
  rw [List.countP_append, List.countP_append]
  rw [countP_entry_phase_zero cfg entries p hp1 (classifyEntry_perEntry cfg)]
  rw [countP_crossViolations cfg (lintGroups cfg entries) p v hp3
    (nodup_keys_buildGroups (lintRecords cfg entries))]
  have hgap : (if cfg.noGaps ∧ lintGroups cfg entries ≠ [] then
      gapViolations (sortKeys ((lintGroups cfg entries).map Prod.fst))
    else []).countP p = 0 := by
    split
    · exact countP_gap_phase_zero _ p hp2
    · simp
  rw [hgap, lookupGroup_lintGroups]
  simp

/-- The duplicate-up violation of a version with duplicated up-records
appears exactly once in that version's checks. -/
theorem countP_dupUp_block (cfg : Config) (v : Int) (g : VersionGroup)
    (h : 1 < g.up.length) :
    (versionChecks cfg v g).countP (· == Violation.duplicateUp v (joinPaths g.up)) = 1 := by
  unfold versionChecks
  rw [List.countP_append, List.countP_append]
  have h2 : (pairChecks cfg v g).countP (· == Violation.duplicateUp v (joinPaths g.up)) = 0 := by
    rw [List.countP_eq_zero]
    intro x hx hpx
    rcases pairChecks_shape cfg v g x hx with rfl | rfl <;> simp at hpx
  have h3 : (nameMatchChecks cfg v g).countP
      (· == Violation.duplicateUp v (joinPaths g.up)) = 0 := by
    rw [List.countP_eq_zero]
    intro x hx hpx
    obtain ⟨a, b, rfl⟩ := nameMatchChecks_shape cfg v g x hx
    simp at hpx
  have h1 : (dupChecks v g).countP (· == Violation.duplicateUp v (joinPaths g.up)) = 1 := by
    unfold dupChecks
    rw [List.countP_append, if_pos h]
    have hdown : (if 1 < g.down.length then [Violation.duplicateDown v (joinPaths g.down)]
        else []).countP (· == Violation.duplicateUp v (joinPaths g.up)) = 0 := by
      split <;> simp
    rw [hdown]
    simp
  rw [h1, h2, h3]

/-- The duplicate-down violation of a version with duplicated down-records
appears exactly once in that version's checks. -/
theorem countP_dupDown_block (cfg : Config) (v : Int) (g : VersionGroup)
    (h : 1 < g.down.length) :
    (versionChecks cfg v g).countP (· == Violation.duplicateDown v (joinPaths g.down)) = 1 := by
  unfold versionChecks
  rw [List.countP_append, List.countP_append]
  have h2 : (pairChecks cfg v g).countP (· == Violation.duplicateDown v (joinPaths g.down)) = 0 := by
    rw [List.countP_eq_zero]
    intro x hx hpx
    rcases pairChecks_shape cfg v g x hx with rfl | rfl <;> simp at hpx
  have h3 : (nameMatchChecks cfg v g).countP
      (· == Violation.duplicateDown v (joinPaths g.down)) = 0 := by
    rw [List.countP_eq_zero]
    intro x hx hpx
    obtain ⟨a, b, rfl⟩ := nameMatchChecks_shape cfg v g x hx
    simp at hpx
  have h1 : (dupChecks v g).countP (· == Violation.duplicateDown v (joinPaths g.down)) = 1 := by
    unfold dupChecks
    rw [List.countP_append, if_pos h]
    have hup : (if 1 < g.up.length then [Violation.duplicateUp v (joinPaths g.up)]
        else []).countP (· == Violation.duplicateDown v (joinPaths g.down)) = 0 := by
      split <;> simp
    rw [hup]
    simp
  rw [h1, h2, h3]

/-- The name/extension rule fires exactly when strict-name-match is on and
the version has exactly one up- and one down-record whose name or extension
parts differ; it never fires twice. -/
theorem countP_nameExt_block (cfg : Config) (v : Int) (g : VersionGroup) :
    ((versionChecks cfg v g).countP (isNameExtAt v) = 1 ↔
      (cfg.strictNameMatch = true ∧ ∃ u d, g.up = [u] ∧ g.down = [d] ∧
        (u.namePart ≠ d.namePart ∨ u.extPart ≠ d.extPart))) ∧
    (versionChecks cfg v g).countP (isNameExtAt v) ≤ 1 := by
  have h1 : (dupChecks v g).countP (isNameExtAt v) = 0 := by
    rw [List.countP_eq_zero]
    intro x hx hpx
    rcases dupChecks_shape v g x hx with rfl | rfl <;> simp [isNameExtAt] at hpx
  have h2 : (pairChecks cfg v g).countP (isNameExtAt v) = 0 := by
    rw [List.countP_eq_zero]
    intro x hx hpx
    rcases pairChecks_shape cfg v g x hx with rfl | rfl <;> simp [isNameExtAt] at hpx
  have hv : (versionChecks cfg v g).countP (isNameExtAt v) =
      (nameMatchChecks cfg v g).countP (isNameExtAt v) := by
    unfold versionChecks
    rw [List.countP_append, List.countP_append, h1, h2]
    simp
  rw [hv]
  cases hsm : cfg.strictNameMatch with
  | false => simp [nameMatchChecks, hsm]
  | true =>
    cases hup : g.up with
    | nil => simp [nameMatchChecks, hsm, hup]
    | cons u us =>
      cases us with
      | cons u2 us2 => simp [nameMatchChecks, hsm, hup]
      | nil =>
        cases hdown : g.down with
        | nil => simp [nameMatchChecks, hsm, hup, hdown]
        | cons d ds =>
          cases ds with
          | cons d2 ds2 => simp [nameMatchChecks, hsm, hup, hdown]
          | nil =>
            by_cases hdiff : u.namePart ≠ d.namePart ∨ u.extPart ≠ d.extPart
            · simp only [nameMatchChecks, hsm, hup, hdown, if_pos hdiff]
              constructor
              · constructor
                · intro _
                  exact ⟨by trivial, u, d, rfl, rfl, hdiff⟩
                · intro _
                  simp [isNameExtAt]
              · simp [isNameExtAt]
            · simp only [nameMatchChecks, hsm, hup, hdown, if_neg hdiff]
              constructor
              · constructor
                · intro h
                  simp at h
                · rintro ⟨-, u', d', hu', hd', hdiff'⟩
                  rw [List.cons.injEq] at hu' hd'
                  exact absurd (by rw [hu'.1, hd'.1]; exact hdiff') hdiff
              · simp

/-- The gap loop is exactly an iteration over adjacent pairs of the sorted
version list, emitting `gapFor` for each pair. -/
theorem gapViolations_eq_pairs : ∀ l : List Int,
    gapViolations l = ((l.zip l.tail).map gapFor).flatten := by
  intro l
  induction l with
  | nil => rfl
  | cons a l ih =>
    cases l with
    | nil => rfl
    | cons b rest =>
      show gapFor (a, b) ++ gapViolations (b :: rest) = _
      rw [ih]
      simp [List.zip_cons_cons]

/-- Key membership from a collected up-record. -/
theorem record_of_upsAt_ne (cfg : Config) (entries : List (List Char)) (v : Int)
    (h : upsAt cfg entries v ≠ []) :
    ∃ r ∈ lintRecords cfg entries, r.2.1 = v := by
  unfold upsAt at h
  cases hx : (lintRecords cfg entries).filter (fun r => r.1 && r.2.1 == v) with
  | nil => rw [hx] at h; simp at h
  | cons r rest =>
    have hr : r ∈ (lintRecords cfg entries).filter (fun r => r.1 && r.2.1 == v) := by
      rw [hx]; simp
    have hm := List.mem_filter.mp hr
    have h2 := hm.2
    simp only [Bool.and_eq_true, beq_iff_eq] at h2
    exact ⟨r, hm.1, h2.2⟩

/-- Key membership from a collected down-record. -/
theorem record_of_downsAt_ne (cfg : Config) (entries : List (List Char)) (v : Int)
    (h : downsAt cfg entries v ≠ []) :
    ∃ r ∈ lintRecords cfg entries, r.2.1 = v := by
  unfold downsAt at h
  cases hx : (lintRecords cfg entries).filter (fun r => !r.1 && r.2.1 == v) with
  | nil => rw [hx] at h; simp at h
  | cons r rest =>
    have hr : r ∈ (lintRecords cfg entries).filter (fun r => !r.1 && r.2.1 == v) := by
      rw [hx]; simp
    have hm := List.mem_filter.mp hr
    have h2 := hm.2
    simp only [Bool.and_eq_true, beq_iff_eq] at h2
    exact ⟨r, hm.1, h2.2⟩

/-- A record with key `v` puts `v` among the final map's keys. -/
theorem mem_keys_of_record (cfg : Config) (entries : List (List Char)) (v : Int)
    (h : ∃ r ∈ lintRecords cfg entries, r.2.1 = v) :
    v ∈ (lintGroups cfg entries).map Prod.fst := by
  unfold lintGroups
  rw [mem_keys_buildGroups]
  exact h

/-- A list whose elements are all equal is weakly sorted. -/
theorem pairwise_le_of_all_eq (v : Int) {L : List Int} (h : ∀ x ∈ L, x = v) :
    L.Pairwise (· ≤ ·) := by
  induction L with
  | nil => exact List.Pairwise.nil
  | cons a L ih =>
    refine List.Pairwise.cons ?_ (ih fun x hx => h x (List.mem_cons_of_mem a hx))
    intro b hb
    rw [h a (by simp), h b (List.mem_cons_of_mem a hb)]

/-- Concatenating per-version blocks along a sorted key list yields
violations in ascending version order. -/
theorem sorted_flatten_blocks (cfg : Config) (gs : List (Int × VersionGroup)) :
    ∀ l : List Int, List.Sorted (· ≤ ·) l →
      List.Sorted (· ≤ ·)
        (((l.map (fun w => versionChecks cfg w (lookupGroup gs w))).flatten).map violVersion) := by
  intro l
  induction l with
  | nil => intro _; simp
  | cons w l ih =>
    intro hs
    rw [List.map_cons, List.flatten_cons, List.map_append]
    rw [List.Sorted, List.pairwise_append]
    refine ⟨?_, ih (List.sorted_cons.mp hs).2, ?_⟩
    · refine pairwise_le_of_all_eq w ?_
      intro x hx
      rw [List.mem_map] at hx
      obtain ⟨x0, hx0, rfl⟩ := hx
      exact versionChecks_version cfg w _ x0 hx0
    · intro x hx y hy
      rw [List.mem_map] at hx
      obtain ⟨x0, hx0, rfl⟩ := hx
      rw [versionChecks_version cfg w _ x0 hx0]
      rw [List.mem_map] at hy
      obtain ⟨y0, hy0, rfl⟩ := hy
      rw [List.mem_flatten] at hy0
      obtain ⟨bl, hbl, hy0bl⟩ := hy0
      rw [List.mem_map] at hbl
      obtain ⟨w', hw', rfl⟩ := hbl
      rw [versionChecks_version cfg w' _ y0 hy0bl]
      exact (List.sorted_cons.mp hs).1 w' hw'

/-- The whole per-version phase is emitted in ascending version order. -/
theorem crossViolations_sorted (cfg : Config) (gs : List (Int × VersionGroup)) :
    List.Sorted (· ≤ ·) ((crossViolations cfg gs).map violVersion) := by
  unfold crossViolations
  exact sorted_flatten_blocks cfg gs _ (List.sorted_insertionSort _ _)

/-! ### Per-entry rule lemmas -/

/-- Every extension-enforcement error is the one mismatch violation of its
entry. -/
theorem entryExtErrs_elem (cfg : Config) (name : List Char) :
    ∀ x ∈ entryExtErrs cfg name,
      x = Violation.extMismatch (joinPath cfg.path name) cfg.ext
        (finalExtForMatchOf name) (extPartOptOf name) := by
  intro x hx
  unfold entryExtErrs at hx
  split at hx
  · exact mem_ite_singleton hx
  · simp at hx

/-- The extension-enforcement rule, counted: one mismatch violation exactly
when the entry looks like a migration and fails the filter, except for
non-canonical entries under strict-pattern. -/
theorem entryExtErrs_count (cfg : Config) (name : List Char)
    (h1 : cfg.ext ≠ []) (h2 : cfg.enforceExt = true) :
    (entryExtErrs cfg name).countP isExtMismatchV =
      if ((migratePattern name).isSome = true ∨ migrationLikeRe name = true
            ∨ hasDirectionToken name = true)
          ∧ extMatches cfg.ext (finalExtForMatchOf name) (extPartOptOf name) = false then
        (if (migratePattern name).isSome = false ∧ cfg.strictPattern = true then 0 else 1)
      else 0 := by
  cases hA : (migratePattern name).isSome <;>
    cases hM : extMatches cfg.ext (finalExtForMatchOf name) (extPartOptOf name) <;>
      cases hS : cfg.strictPattern <;>
        cases hL : migrationLikeRe name <;>
          cases hD : hasDirectionToken name <;>
            simp [entryExtErrs, isExtMismatchV, h1, h2, hA, hM, hS, hL, hD]

/-- No digit-width violation is recorded by the extension rule. -/
theorem entryExtErrs_no_digits (cfg : Config) (name : List Char) :
    ∀ x ∈ entryExtErrs cfg name, isDigitsMismatchV x = false := by
  intro x hx
  rw [entryExtErrs_elem cfg name x hx]
  rfl

/-- With a non-positive configured width, the per-entry phase emits no
digit-width violation. -/
theorem classifyEntry_no_digits (cfg : Config) (name : List Char) (h : cfg.digits ≤ 0) :
    ∀ x ∈ (classifyEntry cfg name).1, isDigitsMismatchV x = false := by
  intro x hx
  unfold classifyEntry at hx
  split at hx
  · simp only [List.mem_append] at hx
    rcases hx with hx | hx
    · exact entryExtErrs_no_digits cfg name x hx
    · rw [mem_ite_singleton hx]
      rfl
  · split at hx
    · exact entryExtErrs_no_digits cfg name x hx
    · split at hx
      · simp only [List.mem_append, List.mem_singleton] at hx
        rcases hx with hx | rfl
        · exact entryExtErrs_no_digits cfg name x hx
        · rfl
      · simp only [List.mem_append] at hx
        rcases hx with hx | hx
        · exact entryExtErrs_no_digits cfg name x hx
        · split at hx
          · next hcond =>
            exact absurd hcond.1 (by omega)
          · simp at hx

/-- A digit-width violation is of per-entry kind. -/
theorem isPerEntryV_of_digits {x : Violation} (h : isDigitsMismatchV x = true) :
    isPerEntryV x = true := by
  cases x <;> simp_all [isDigitsMismatchV, isPerEntryV]

/-- A digit-width violation is not a gap violation. -/
theorem not_gap_of_digits {x : Violation} (h : isDigitsMismatchV x = true) :
    isGapV x = false := by
  cases x <;> simp_all [isDigitsMismatchV, isGapV]

/-- The name/extension detector classifies. -/
theorem isNameExtAt_class {v : Int} {x : Violation} (h : isNameExtAt v x = true) :
    isPerEntryV x = false ∧ isGapV x = false ∧ violVersion x = v := by
  cases x <;> simp_all [isNameExtAt, isPerEntryV, isGapV, violVersion]

/-- Per entry, only the extension rule emits extension-mismatch
violations. -/
theorem classifyEntry_countP_ext (cfg : Config) (name : List Char) :
    (classifyEntry cfg name).1.countP isExtMismatchV =
      (entryExtErrs cfg name).countP isExtMismatchV := by
  rw [List.countP_eq_length_filter, List.countP_eq_length_filter]
  congr 1
  unfold classifyEntry
  split
  · show (entryExtErrs cfg name ++ _).filter isExtMismatchV = _
    rw [List.filter_append]
    have h0 : (if isCandidate name (finalExtForMatchOf name) (extPartOptOf name)
        (migrationLikeRe name) (hasDirectionToken name) cfg = true then
          [Violation.unmatched (joinPath cfg.path name)] else []).filter isExtMismatchV = [] := by
      split <;> simp [isExtMismatchV]
    rw [h0, List.append_nil]
  · split
    · rfl
    · split
      · show (entryExtErrs cfg name ++ _).filter isExtMismatchV = _
        rw [List.filter_append]
        simp [isExtMismatchV]
      · show (entryExtErrs cfg name ++ _).filter isExtMismatchV = _
        rw [List.filter_append]
        split <;> simp [isExtMismatchV]

/-- In the suppressed case of the extension rule, the unmatched-file rule
reports the entry exactly once. -/
theorem classifyEntry_count_unmatched (cfg : Config) (name : List Char)
    (h1 : cfg.ext ≠ []) (h2 : cfg.enforceExt = true)
    (hnone : migratePattern name = none) (hsp : cfg.strictPattern = true)
    (hld : migrationLikeRe name = true ∨ hasDirectionToken name = true)
    (hm : extMatches cfg.ext (finalExtForMatchOf name) (extPartOptOf name) = false) :
    (classifyEntry cfg name).1.countP isUnmatchedV = 1 := by
  have hcand : isCandidate name (finalExtForMatchOf name) (extPartOptOf name)
      (migrationLikeRe name) (hasDirectionToken name) cfg = true := by
    rcases hld with hl | hd
    · simp [isCandidate, h1, h2, hm, hsp, hl]
    · simp [isCandidate, h1, h2, hm, hsp, hd]
  have hext0 : (entryExtErrs cfg name).countP isUnmatchedV = 0 := by
    rw [List.countP_eq_zero]
    intro x hx hpx
    rw [entryExtErrs_elem cfg name x hx] at hpx
    simp [isUnmatchedV] at hpx
  simp [classifyEntry, hnone, hcand, List.countP_append, hext0, isUnmatchedV]

/-! ### Concrete configurations for the testable scenarios -/

/-- An all-defaults configuration. -/
def defaultCfg : Config := ⟨[], [], false, false, 0, false, false, false⟩

/-- Defaults plus no-gaps. -/
def gapCfg : Config := ⟨[], [], false, true, 0, false, false, false⟩

/-- Extension filter `sql` with enforcement. -/
def extCfg : Config := ⟨[], "sql".toList, true, false, 0, false, false, false⟩

/-- Extension filter `sql` with enforcement and strict-pattern. -/
def strictExtCfg : Config := ⟨[], "sql".toList, true, false, 0, false, false, true⟩

/-- Defaults plus strict-name-match. -/
def nameMatchCfg : Config := ⟨[], [], false, false, 0, false, true, false⟩

/-- A directory with duplicated up- and down-migrations for version 1. -/
def dupEntries : List (List Char) :=
  ["000001_a.up.sql".toList, "000001_b.up.sql".toList,
   "000001_a.down.sql".toList, "000001_b.down.sql".toList]

/-! ### Claims -/

/-- Claim C1, counterexample: on `1_a.up.down.sql` the canonical pattern
does not take the shortest name split — the match is not
(`1`, `a`, `up`, `down.sql`). -/
theorem C1_counterexample :
    migratePattern ("1_a.up.down.sql".toList) ≠
      some ("1".toList, "a".toList, upTok, "down.sql".toList) := by
  decide

/-- Claim C1 (amended): canonical classification succeeds exactly on
filenames of the shape `<digits>_<name>.<up|down>.<ext>` with non-empty
name and extension parts, and the name part is matched greedily: for every
filename admitting several direction splits, the longest name prefix is
taken, so for `1_a.up.down.sql` the direction is `down` and the extension
part is `sql`. -/
theorem C1_canonical_greedy :
    (∀ s v n d e : List Char,
      migratePattern s = some (v, n, d, e) ↔
        (CanonicalShape s v n d e ∧
          ∀ v' n' d' e', CanonicalShape s v' n' d' e' → n'.length ≤ n.length)) ∧
    migratePattern ("1_a.up.down.sql".toList) =
      some ("1".toList, "a.up".toList, downTok, "sql".toList) :=
  ⟨fun _ _ _ _ _ => migratePattern_eq_some, by decide⟩

/-- Witness for C1 at `1_a.up.down.sql`. -/
theorem C1_canonical_greedy_witness :
    CanonicalShape ("1_a.up.down.sql".toList) ("1".toList) ("a.up".toList) downTok
      ("sql".toList) :=
  ((C1_canonical_greedy.1 _ _ _ _ _).mp (by decide)).1

/-- Claim C2, counterexample: `NAME.up` carries a direction token but no
leading digit run, and classification reports `hasDirectionToken` as
false, not true. -/
theorem C2_counterexample : hasDirectionToken ("NAME.up".toList) = false := by
  decide

/-- Claim C2 (amended): direction-token detection, like the loose
migration-like pattern, requires a leading digit run followed by an
underscore — for `NAME.up` it reports false; it is looser than the
migration-like pattern only in not requiring a trailing extension, as
`001_name.up` shows. -/
theorem C2_direction_token_requires_digits :
    hasDirectionToken ("NAME.up".toList) = false ∧
    (∀ s : List Char, hasDirectionToken s = true →
      ∃ v r, s = v ++ '_' :: r ∧ v ≠ [] ∧ v.all isDigitChar = true) ∧
    hasDirectionToken ("001_name.up".toList) = true ∧
    migrationLikeRe ("001_name.up".toList) = false := by
  refine ⟨by decide, ?_, by decide, by decide⟩
  intro s h
  exact hasDirectionToken_digits h

/-- Witness for C2 at `001_name.up`. -/
theorem C2_direction_token_requires_digits_witness :
    ∃ v r, ("001_name.up".toList) = v ++ '_' :: r ∧ v ≠ [] ∧ v.all isDigitChar = true :=
  C2_direction_token_requires_digits.2.1 ("001_name.up".toList) (by decide)

/-- Claim C3: with an extension filter configured and enforcement enabled,
an entry produces exactly one extension-mismatch violation exactly when it
is canonical, migration-like, or has a bare direction token and its
extension fails `extMatches` — except that a non-canonical entry under
strict-pattern produces none, the unmatched-file rule reporting it (once)
instead. -/
theorem C3_ext_mismatch_emission (cfg : Config) (name : List Char)
    (h1 : cfg.ext ≠ []) (h2 : cfg.enforceExt = true) :
    ((classifyEntry cfg name).1.countP isExtMismatchV =
      if ((migratePattern name).isSome = true ∨ migrationLikeRe name = true
            ∨ hasDirectionToken name = true)
          ∧ extMatches cfg.ext (finalExtForMatchOf name) (extPartOptOf name) = false then
        (if (migratePattern name).isSome = false ∧ cfg.strictPattern = true then 0 else 1)
      else 0) ∧
    ((migratePattern name = none ∧ cfg.strictPattern = true
        ∧ (migrationLikeRe name = true ∨ hasDirectionToken name = true)
        ∧ extMatches cfg.ext (finalExtForMatchOf name) (extPartOptOf name) = false) →
      (classifyEntry cfg name).1.countP isUnmatchedV = 1) := by
  constructor
  · rw [classifyEntry_countP_ext]
    exact entryExtErrs_count cfg name h1 h2
  · rintro ⟨hnone, hsp, hld, hm⟩
    exact classifyEntry_count_unmatched cfg name h1 h2 hnone hsp hld hm

/-- Witness for C3: one mismatch for a canonical `.txt` entry under filter
`sql`; under strict-pattern, a bare `000001_a.up` is reported once as
unmatched instead. -/
theorem C3_ext_mismatch_emission_witness :
    (classifyEntry extCfg ("000001_a.up.txt".toList)).1.countP isExtMismatchV = 1 ∧
    (classifyEntry strictExtCfg ("000001_a.up".toList)).1.countP isUnmatchedV = 1 := by
  constructor
  · have h := (C3_ext_mismatch_emission extCfg ("000001_a.up.txt".toList)
      (by decide) rfl).1
    rw [h]
    decide
  · exact (C3_ext_mismatch_emission strictExtCfg ("000001_a.up".toList)
      (by decide) rfl).2 (by decide)

/-- Claim C4: canonical entries are grouped by the integer value of the
version token — the record's key is `digitsToNat` of the version string,
so strings differing only in leading zeros share a group — and a version
token that does not fit a signed 64-bit integer emits exactly one version
parse error and produces no record. -/
theorem C4_version_grouping (cfg : Config) (name v n d e : List Char)
    (hext : cfg.ext = [])
    (hc : migratePattern name = some (v, n, d, e)) :
    (digitsToNat v ≤ maxInt64 →
      (classifyEntry cfg name).2 =
        some (d == upTok, (digitsToNat v : Int),
          { path := joinPath cfg.path name, fileName := name, versionStr := v,
            version := (digitsToNat v : Int), namePart := n, direction := d,
            extPart := e, finalExt := finalExtension name })) ∧
    (maxInt64 < digitsToNat v →
      (classifyEntry cfg name).2 = none ∧
      (classifyEntry cfg name).1 = [.versionParseError (joinPath cfg.path name)]) := by
  have hee : entryExtErrs cfg name = [] := by
    unfold entryExtErrs
    rw [if_neg]
    rintro ⟨hne, -⟩
    exact hne hext
  have hskip : ¬ (cfg.ext ≠ [] ∧ extMatches cfg.ext (finalExtForMatchOf name) e = false) := by
    rintro ⟨hne, -⟩
    exact hne hext
  constructor
  · intro hle
    have hpv : parseVersion v = some ((digitsToNat v : Int)) := by
      unfold parseVersion
      rw [if_pos hle]
    simp [classifyEntry, hc, hskip, hpv]
  · intro hgt
    have hpv : parseVersion v = none := by
      unfold parseVersion
      rw [if_neg (by omega)]
    simp [classifyEntry, hc, hskip, hpv, hee]

/-- Witness for C4: `001` and `1` land on the same key 1, and a 2^63
version string fails with one parse error. -/
theorem C4_version_grouping_witness :
    (classifyEntry defaultCfg ("001_a.up.sql".toList)).2 =
      some (("up".toList == upTok), (1 : Int),
        { path := joinPath defaultCfg.path ("001_a.up.sql".toList),
          fileName := "001_a.up.sql".toList, versionStr := "001".toList,
          version := (1 : Int), namePart := "a".toList, direction := "up".toList,
          extPart := "sql".toList, finalExt := finalExtension ("001_a.up.sql".toList) }) ∧
    (classifyEntry defaultCfg ("9223372036854775808_a.up.sql".toList)).2 = none ∧
    (classifyEntry defaultCfg ("9223372036854775808_a.up.sql".toList)).1 =
      [.versionParseError (joinPath defaultCfg.path ("9223372036854775808_a.up.sql".toList))] := by
  refine ⟨?_, C4_version_grouping defaultCfg ("9223372036854775808_a.up.sql".toList)
    ("9223372036854775808".toList) ("a".toList) upTok ("sql".toList) rfl (by decide)
    |>.2 (by decide)⟩
  have h := C4_version_grouping defaultCfg ("001_a.up.sql".toList)
    ("001".toList) ("a".toList) upTok ("sql".toList) rfl (by decide) |>.1 (by decide)
  simpa using h

/-- Claim C5: a version with two or more up-records yields exactly one
duplicate-up violation listing all offending paths comma-joined in entry
order (symmetrically for down-records), and the per-version violations are
emitted in ascending numeric version order. -/
theorem C5_duplicates (cfg : Config) (entries : List (List Char)) (v : Int) :
    (1 < (upsAt cfg entries v).length →
      (Lint cfg entries).countP
        (· == Violation.duplicateUp v (joinPaths (upsAt cfg entries v))) = 1) ∧
    (1 < (downsAt cfg entries v).length →
      (Lint cfg entries).countP
        (· == Violation.duplicateDown v (joinPaths (downsAt cfg entries v))) = 1) ∧
    List.Sorted (· ≤ ·)
      ((crossViolations cfg (lintGroups cfg entries)).map violVersion) := by
  refine ⟨?_, ?_, crossViolations_sorted cfg _⟩
  · intro h
    have hne : upsAt cfg entries v ≠ [] := by
      intro h0
      rw [h0] at h
      simp at h
    have hmem : v ∈ (lintGroups cfg entries).map Prod.fst :=
      mem_keys_of_record cfg entries v (record_of_upsAt_ne cfg entries v hne)
    rw [countP_Lint cfg entries _ v
      (fun x hx => by rw [eq_of_beq hx]; rfl)
      (fun x hx => by rw [eq_of_beq hx]; rfl)
      (fun x hx => by rw [eq_of_beq hx]; rfl)]
    rw [if_pos hmem]
    exact countP_dupUp_block cfg v ⟨upsAt cfg entries v, downsAt cfg entries v⟩ h
  · intro h
    have hne : downsAt cfg entries v ≠ [] := by
      intro h0
      rw [h0] at h
      simp at h
    have hmem : v ∈ (lintGroups cfg entries).map Prod.fst :=
      mem_keys_of_record cfg entries v (record_of_downsAt_ne cfg entries v hne)
    rw [countP_Lint cfg entries _ v
      (fun x hx => by rw [eq_of_beq hx]; rfl)
      (fun x hx => by rw [eq_of_beq hx]; rfl)
      (fun x hx => by rw [eq_of_beq hx]; rfl)]
    rw [if_pos hmem]
    exact countP_dupDown_block cfg v ⟨upsAt cfg entries v, downsAt cfg entries v⟩ h

/-- Witness for C5 on a directory with duplicated up- and down-files for
version 1. -/
theorem C5_duplicates_witness :
    (Lint defaultCfg dupEntries).countP
      (· == Violation.duplicateUp 1 (joinPaths (upsAt defaultCfg dupEntries 1))) = 1 ∧
    (Lint defaultCfg dupEntries).countP
      (· == Violation.duplicateDown 1 (joinPaths (downsAt defaultCfg dupEntries 1))) = 1 :=
  ⟨(C5_duplicates defaultCfg dupEntries 1).1 (by decide),
   (C5_duplicates defaultCfg dupEntries 1).2.1 (by decide)⟩

/-- Claim C6: with strict-name-match enabled, a name/extension-mismatch
violation for a version is emitted exactly once if and only if the version
has exactly one up-record and one down-record whose name or extension parts
differ — so it never fires for versions with duplicates. -/
theorem C6_name_ext_rule (cfg : Config) (entries : List (List Char)) (v : Int)
    (h : cfg.strictNameMatch = true) :
    ((Lint cfg entries).countP (isNameExtAt v) = 1 ↔
      (∃ u d, upsAt cfg entries v = [u] ∧ downsAt cfg entries v = [d] ∧
        (u.namePart ≠ d.namePart ∨ u.extPart ≠ d.extPart))) ∧
    (Lint cfg entries).countP (isNameExtAt v) ≤ 1 := by
  have hcnt := countP_Lint cfg entries (isNameExtAt v) v
    (fun x hx => (isNameExtAt_class hx).1)
    (fun x hx => (isNameExtAt_class hx).2.1)
    (fun x hx => (isNameExtAt_class hx).2.2)
  rw [hcnt]
  have hblock := countP_nameExt_block cfg v ⟨upsAt cfg entries v, downsAt cfg entries v⟩
  by_cases hmem : v ∈ (lintGroups cfg entries).map Prod.fst
  · rw [if_pos hmem]
    refine ⟨?_, hblock.2⟩
    constructor
    · intro h1
      exact ((hblock.1.mp h1)).2
    · intro h2
      exact hblock.1.mpr ⟨h, h2⟩
  · rw [if_neg hmem]
    constructor
    · constructor
      · intro h01
        exact absurd h01 (by simp)
      · rintro ⟨u, d, hu, hd, -⟩
        refine absurd (mem_keys_of_record cfg entries v
          (record_of_upsAt_ne cfg entries v ?_)) hmem
        rw [hu]
        simp
    · simp

/-- Witness for C6 on a version-1 pair with differing name parts. -/
theorem C6_name_ext_rule_witness :
    ∃ u d, upsAt nameMatchCfg
        ["000001_foo.up.sql".toList, "000001_bar.down.sql".toList] 1 = [u] ∧
      downsAt nameMatchCfg
        ["000001_foo.up.sql".toList, "000001_bar.down.sql".toList] 1 = [d] ∧
      (u.namePart ≠ d.namePart ∨ u.extPart ≠ d.extPart) :=
  ((C6_name_ext_rule nameMatchCfg
    ["000001_foo.up.sql".toList, "000001_bar.down.sql".toList] 1 rfl).1).mp (by decide)

/-- Claim C7: with no-gaps enabled the gap rule iterates adjacent pairs of
the sorted distinct versions, emitting exactly one violation per gap — a
single missing version as `missing version N`, a longer gap as
`missing versions N..M` — and none for contiguous versions: versions
`{1,3}` yield exactly one violation naming 2, `{1,5}` one naming 2..4,
`{1,2,3}` none. -/
theorem C7_gap_detection :
    (∀ l : List Int, gapViolations l = ((l.zip l.tail).map gapFor).flatten) ∧
    Lint gapCfg ["000001_a.up.sql".toList, "000003_a.up.sql".toList] =
      [.missingSingle 2 1 3] ∧
    Lint gapCfg ["000001_a.up.sql".toList, "000005_a.up.sql".toList] =
      [.missingRange 2 4 1 5] ∧
    Lint gapCfg ["000001_a.up.sql".toList, "000002_a.up.sql".toList,
      "000003_a.up.sql".toList] = [] :=
  ⟨gapViolations_eq_pairs, by decide, by decide, by decide⟩

/-- Claim C8: extension matching is dual-mode — an empty filter matches
everything, a dotted filter compares the full extension part, an undotted
filter compares the final dot-delimited suffix, as on
`name.up.sql.gz`. -/
theorem C8_ext_matches_dual :
    (∀ finalExt extPart : List Char, extMatches [] finalExt extPart = true) ∧
    (∀ expected finalExt extPart : List Char, expected.contains '.' = true →
      (extMatches expected finalExt extPart = true ↔ extPart = expected)) ∧
    (∀ expected finalExt extPart : List Char, expected ≠ [] →
      expected.contains '.' = false →
      (extMatches expected finalExt extPart = true ↔ finalExt = expected)) ∧
    finalExtension ("name.up.sql.gz".toList) = "gz".toList ∧
    extMatches ("gz".toList) (finalExtension ("name.up.sql.gz".toList))
      ("up.sql.gz".toList) = true ∧
    extMatches ("sql.gz".toList) ("gz".toList) ("sql.gz".toList) = true ∧
    extMatches ("sql.gz".toList) ("gz".toList) ("x.sql.gz".toList) = false := by
  refine ⟨?_, ?_, ?_, by decide, by decide, by decide, by decide⟩
  · intro finalExt extPart
    simp [extMatches]
  · intro expected finalExt extPart hdot
    have hne : expected ≠ [] := by
      intro h0
      rw [h0] at hdot
      simp at hdot
    unfold extMatches
    rw [if_neg hne, if_pos hdot]
    exact beq_iff_eq
  · intro expected finalExt extPart hne hdot
    unfold extMatches
    rw [if_neg hne, if_neg (by rw [hdot]; simp)]
    exact beq_iff_eq

/-- Witness for C8 at concrete filters. -/
theorem C8_ext_matches_dual_witness :
    (extMatches ("sql.gz".toList) ("x".toList) ("sql.gz".toList) = true ↔
      ("sql.gz".toList : List Char) = "sql.gz".toList) ∧
    (extMatches ("gz".toList) ("gz".toList) ("anything".toList) = true ↔
      ("gz".toList : List Char) = "gz".toList) :=
  ⟨C8_ext_matches_dual.2.1 _ _ _ (by decide),
   C8_ext_matches_dual.2.2.1 _ _ _ (by decide) (by decide)⟩

/-- Claim C9: a canonical entry whose extension fails the configured
filter is excluded from version grouping regardless of enforcement; with
enforcement on, the extension-mismatch violation is still emitted for it. -/
theorem C9_nonmatching_excluded (cfg : Config) (name v n d e : List Char)
    (hc : migratePattern name = some (v, n, d, e))
    (hext : cfg.ext ≠ [])
    (hfail : extMatches cfg.ext (finalExtForMatchOf name) e = false) :
    (classifyEntry cfg name).2 = none ∧
    (cfg.enforceExt = true →
      Violation.extMismatch (joinPath cfg.path name) cfg.ext (finalExtForMatchOf name)
        (extPartOptOf name) ∈ (classifyEntry cfg name).1) := by
  constructor
  · simp [classifyEntry, hc, hext, hfail]
  · intro henf
    obtain ⟨hdir, hopt⟩ := prefix_of_canonical hc
    have hfail' : extMatches cfg.ext (finalExtForMatchOf name) (extPartOptOf name) = false := by
      unfold extMatches at hfail ⊢
      rw [if_neg hext] at hfail ⊢
      by_cases hdot : cfg.ext.contains '.' = true
      · rw [if_pos hdot] at hfail ⊢
        rcases hopt with heq | heq
        · rw [heq]
          exact hfail
        · rw [heq]
          rw [beq_eq_false_iff_ne]
          exact fun h0 => hext h0.symm
      · rw [if_neg hdot] at hfail ⊢
        exact hfail
    have hsome : (migratePattern name).isSome = true := by
      rw [hc]
      rfl
    simp only [classifyEntry, hc]
    rw [if_pos ⟨hext, hfail⟩]
    show Violation.extMismatch (joinPath cfg.path name) cfg.ext (finalExtForMatchOf name)
        (extPartOptOf name) ∈ entryExtErrs cfg name
    unfold entryExtErrs
    rw [if_pos ⟨hext, henf, hfail', Or.inl hsome⟩, if_pos (Or.inl hsome)]
    simp

/-- Witness for C9: a canonical `.txt` entry under filter `sql` joins no
group yet is reported. -/
theorem C9_nonmatching_excluded_witness :
    (classifyEntry extCfg ("000001_a.up.txt".toList)).2 = none ∧
    Violation.extMismatch (joinPath extCfg.path ("000001_a.up.txt".toList)) extCfg.ext
      (finalExtForMatchOf ("000001_a.up.txt".toList))
      (extPartOptOf ("000001_a.up.txt".toList))
      ∈ (classifyEntry extCfg ("000001_a.up.txt".toList)).1 := by
  have h := C9_nonmatching_excluded extCfg ("000001_a.up.txt".toList)
    ("000001".toList) ("a".toList) upTok ("txt".toList) (by decide) (by decide) (by decide)
  exact ⟨h.1, h.2 rfl⟩

/-- Claim C10: with a configured digit width of zero (or any non-positive
width), no digits-mismatch violation is ever emitted. -/
theorem C10_no_digits_check (cfg : Config) (entries : List (List Char))
    (h : cfg.digits ≤ 0) :
    (Lint cfg entries).countP isDigitsMismatchV = 0 := by
  unfold Lint
  rw [List.countP_append, List.countP_append]
  have he : (((entries.map (classifyEntry cfg)).map Prod.fst).flatten).countP
      isDigitsMismatchV = 0 := by
    rw [List.countP_eq_zero]
    intro x hx hpx
    rw [List.mem_flatten] at hx
    obtain ⟨l, hl, hxl⟩ := hx
    rw [List.mem_map] at hl
    obtain ⟨pr, hpr, rfl⟩ := hl
    rw [List.mem_map] at hpr
    obtain ⟨name, hname, rfl⟩ := hpr
    have h0 := classifyEntry_no_digits cfg name h x hxl
    rw [hpx] at h0
    exact absurd h0 (by simp)
  have hcr : (crossViolations cfg (lintGroups cfg entries)).countP isDigitsMismatchV = 0 := by
    rw [List.countP_eq_zero]
    intro x hx hpx
    unfold crossViolations at hx
    rw [List.mem_flatten] at hx
    obtain ⟨bl, hbl, hxbl⟩ := hx
    rw [List.mem_map] at hbl
    obtain ⟨w, hw, rfl⟩ := hbl
    have h0 := (versionChecks_class cfg w _ x hxbl).1
    rw [isPerEntryV_of_digits hpx] at h0
    exact absurd h0 (by simp)
  have hg : (if cfg.noGaps = true ∧ lintGroups cfg entries ≠ [] then
      gapViolations (sortKeys ((lintGroups cfg entries).map Prod.fst))
    else []).countP isDigitsMismatchV = 0 := by
    split
    · rw [List.countP_eq_zero]
      intro x hx hpx
      have h0 := gapViolations_shape _ x hx
      rw [not_gap_of_digits hpx] at h0
      exact absurd h0 (by simp)
    · simp
  rw [he, hcr, hg]

/-- Witness for C10 on a short version string with the default width. -/
theorem C10_no_digits_check_witness :
    (Lint defaultCfg ["001_a.up.sql".toList]).countP isDigitsMismatchV = 0 :=
  C10_no_digits_check defaultCfg ["001_a.up.sql".toList] (by decide)

/-- Witness for C7 at the adjacent pair (1, 3). -/
theorem C7_gap_detection_witness :
    gapViolations [1, 3] =
      ((([1, 3] : List Int).zip ([1, 3] : List Int).tail).map gapFor).flatten :=
  C7_gap_detection.1 [1, 3]

end Miglint
